import Mathlib

/-
Verification of the BackFS block cache engine (backfs-rs).

This file gives a shallow embedding of the cache engine:

* the bucket store (src/bucket_store.rs, FsCacheBucketStore),
* the block map (src/block_map.rs, FSCacheBlockMap),
* the engine-level wiring between them (eviction callbacks),
* the fetch pipeline of src/fscache.rs (the FSCache struct as present in
  the tree, whose fetch reads the mtime from the file handle itself),
  together with the on-disk linked list semantics of src/fsll.rs.

Paths are modelled as opaque atoms: a backing path is a Nat, a map entry
(the numbered symlink map/<path>/<i>) is a pair (path, i), and a bucket
directory buckets/N is the Nat N.  Directory contents (data files, parent
symlinks, map symlinks, mtime witness files) are association lists keyed by
those atoms.  File sizes are list lengths; bytes are Nat.

u64 arithmetic is modelled on Nat, with explicit `% 2^64` at the places the
Rust code can wrap in release mode (the `offset + size - 1` computation of
fetch); elsewhere the code's values stay far below 2^64 and plain Nat is
exact.
-/

namespace BackFS

/-! ## Association list helpers

Directory entries with unique names.  `eraseA` removes every binding of a
key (a real directory cannot hold two entries of one name, so on states
reachable from a real directory this agrees with removing the one entry). -/

def lookupA {α β : Type} [DecidableEq α] : List (α × β) → α → Option β
  | [], _ => none
  | e :: t, a => if e.1 = a then some e.2 else lookupA t a

def eraseA {α β : Type} [DecidableEq α] (l : List (α × β)) (a : α) : List (α × β) :=
  l.filter (fun e => decide (e.1 ≠ a))

def updateA {α β : Type} [DecidableEq α] (l : List (α × β)) (a : α) (b : β) : List (α × β) :=
  (a, b) :: eraseA l a

/-! ## Error codes -/

inductive Err : Type where
  | enoent
  | einval
  | enotdir
  | fuelOut
  | other
  deriving DecidableEq

/-! ## The on-disk linked list used by the bucket store

Modelled from the spec: `FsCacheBucketStore` (src/bucket_store.rs) is generic
over the `PathLinkedList` trait, whose current implementation `Fsll` is not
in the tree (src/fsll.rs holds an older incompatible revision of the module).
Section 4.1 of the specification fixes the contract: a list of directories
with head/tail anchors; insert requires the element to be unlinked, `to_head`
promotes an existing element, `disconnect` removes an existing element,
`get_tail` reads the tail anchor.  A Lean `List` (head first) realises it. -/

def llInsertAsHead (l : List Nat) (p : Nat) : Except Err (List Nat) :=
  if p ∈ l then .error .einval else .ok (p :: l)

def llInsertAsTail (l : List Nat) (p : Nat) : Except Err (List Nat) :=
  if p ∈ l then .error .einval else .ok (l ++ [p])

def llToHead (l : List Nat) (p : Nat) : Except Err (List Nat) :=
  if p ∈ l then .ok (p :: l.erase p) else .error .einval

def llDisconnect (l : List Nat) (p : Nat) : Except Err (List Nat) :=
  if p ∈ l then .ok (l.erase p) else .error .einval

/-! ## Bucket store state

Translated from src/bucket_store.rs (struct FsCacheBucketStore).  A map
entry path (the `parent` target of a bucket) is a pair: backing path atom
and block number. -/

abbrev Key : Type := Nat × Nat

structure Store : Type where
  /-- contents of each bucket's `data` file -/
  data : List (Nat × List Nat)
  /-- target of each bucket's `parent` symlink -/
  parent : List (Nat × Key)
  /-- the used list (LRU), head first -/
  used : List Nat
  /-- the free list, head first -/
  free : List Nat
  usedBytes : Nat
  maxBytes : Option Nat
  nextBucket : Nat
  deriving DecidableEq

def dataLen (s : Store) (b : Nat) : Nat :=
  ((lookupA s.data b).map List.length).getD 0

/-- Sum of the data file lengths over the buckets of the used list. -/
def sumUsed (s : Store) : Nat :=
  (s.used.map (fun b => dataLen s b)).sum

/-- FsCacheBucketStore::get (src/bucket_store.rs lines 223-242): promote the
bucket to the head of the used list, then read its data file. -/
def storeGet (s : Store) (b : Nat) : Except Err (List Nat) × Store :=
  match llToHead s.used b with
  | .error e => (.error e, s)
  | .ok u =>
    let s1 := { s with used := u }
    match lookupA s1.data b with
    | none => (.error .enoent, s1)
    | some d => (.ok d, s1)

/-- FsCacheBucketStore::free_bucket (src/bucket_store.rs lines 323-351):
disconnect from the used list, insert at the free-list tail, remove the data
file if present (its size is the freed amount, otherwise 0), remove the
parent link (an absent parent link makes `fs::remove_file` fail with ENOENT
and the error propagates), and only then decrement used_bytes. -/
def freeBucket (s : Store) (b : Nat) : Except Err Nat × Store :=
  match llDisconnect s.used b with
  | .error e => (.error e, s)
  | .ok u =>
    match llInsertAsTail s.free b with
    | .error e => (.error e, { s with used := u })
    | .ok f =>
      let s1 : Store := { s with used := u, free := f }
      let sz := dataLen s1 b
      let s2 : Store := { s1 with data := eraseA s1.data b }
      match lookupA s2.parent b with
      | none => (.error .enoent, s2)
      | some _ =>
        let s3 : Store := { s2 with parent := eraseA s2.parent b }
        (.ok sz, { s3 with usedBytes := s3.usedBytes - sz })

/-- FsCacheBucketStore::delete_something (src/bucket_store.rs lines 353-376):
read the used-list tail (EINVAL when the list is empty), read its parent link
(EINVAL when absent), free the bucket, and return the parent map path with
the freed byte count. -/
def deleteSomething (s : Store) : Except Err (Key × Nat) × Store :=
  match s.used.getLast? with
  | none => (.error .einval, s)
  | some b =>
    match lookupA s.parent b with
    | none => (.error .einval, s)
    | some k =>
      match freeBucket s b with
      | (.ok n, s2) => (.ok (k, n), s2)
      | (.error e, s2) => (.error e, s2)

/-- FsCacheBucketStore::free_bytes_needed_for_write (src/bucket_store.rs
lines 174-180). -/
def bytesNeeded (s : Store) (len : Nat) : Nat :=
  match s.maxBytes with
  | none => 0
  | some m => if s.usedBytes + len ≤ m then 0 else s.usedBytes + len - m

/-- Type of the delete handler callbacks threaded through put and init: they
receive the parent map path of an evicted bucket and act on a peer state. -/
def Hdl (σ : Type) : Type := Key → σ → Except Err Unit × σ

/-- Eviction loop at the head of FsCacheBucketStore::put (src/bucket_store.rs
lines 286-297): while more bytes are needed, delete the LRU bucket and tell
the handler.  Each successful round shortens the used list by one, so the
fuel `used.length + 1` put passes is exactly enough for every terminating
run of the Rust loop; running out of fuel maps the one remaining behaviour
(delete_something failing on the emptied list) faithfully through
deleteSomething itself.  The third component logs the evicted buckets. -/
def evictLoop {σ : Type} (h : Hdl σ) (len : Nat) :
    Nat → Store × σ → Except Err Unit × (Store × σ) × List Nat
  | 0, st => (.error .fuelOut, st, [])
  | fuel + 1, (s, x) =>
    if bytesNeeded s len = 0 then (.ok (), (s, x), [])
    else
      match s.used.getLast? with
      | none => (.error .einval, (s, x), [])
      | some b =>
        match deleteSomething s with
        | (.error e, s2) => (.error e, (s2, x), [])
        | (.ok (k, _), s2) =>
          match h k x with
          | (.error e, x2) => (.error e, (s2, x2), [b])
          | (.ok _, x2) =>
            match evictLoop h len fuel (s2, x2) with
            | (r, st2, log) => (r, st2, b :: log)

/-- Bucket acquisition: FsCacheBucketStore::get_bucket and new_bucket
(src/bucket_store.rs lines 148-172).  A new bucket takes the next number
(the counter file is written before the used-list insert), a reused bucket
comes from the free-list tail. -/
def getBucket (s : Store) : Except Err Nat × Store :=
  if s.free.isEmpty then
    match llInsertAsHead s.used s.nextBucket with
    | .error e => (.error e, { s with nextBucket := s.nextBucket + 1 })
    | .ok u => (.ok s.nextBucket, { s with used := u, nextBucket := s.nextBucket + 1 })
  else
    match s.free.getLast? with
    | none => (.error .other, s)
    | some b =>
      match llDisconnect s.free b with
      | .error e => (.error e, s)
      | .ok f =>
        match llInsertAsHead s.used b with
        | .error e => (.error e, { s with free := f })
        | .ok u => (.ok b, { s with free := f, used := u })

/-- FsCacheBucketStore::put (src/bucket_store.rs lines 245-321): evict until
within budget, take a bucket, write its parent link, create-truncate-write
its data file, and add the written length to used_bytes.  The ENOSPC retry
arms of the source never fire here (the modelled filesystem does not run out
of space).  The last component logs the buckets evicted by the leading loop. -/
def storePut {σ : Type} (h : Hdl σ) (pk : Key) (d : List Nat) (st : Store × σ) :
    Except Err Nat × (Store × σ) × List Nat :=
  match evictLoop h d.length (st.1.used.length + 1) st with
  | (.error e, st2, log) => (.error e, st2, log)
  | (.ok _, (s1, x1), log) =>
    match getBucket s1 with
    | (.error e, s2) => (.error e, (s2, x1), log)
    | (.ok b, s2) =>
      let s3 : Store := { s2 with parent := updateA s2.parent b pk }
      let s4 : Store := { s3 with data := updateA s3.data b d }
      (.ok b, ({ s4 with usedBytes := s4.usedBytes + d.length }, x1), log)

/-! ## The bucket store consistency invariant

Spec section 3, invariants B1-B3 (restricted to the store's own state), plus
bookkeeping facts the store maintains: both lists are duplicate-free and
disjoint, used buckets have a parent link, data and parent entries belong to
used buckets, used_bytes is the sum of the used data lengths and respects
max_bytes, and all listed buckets have numbers below the counter. -/

def StoreInvP (s : Store) : Prop :=
  s.used.Nodup ∧ s.free.Nodup ∧
  (∀ b ∈ s.used, b ∉ s.free) ∧
  (∀ b ∈ s.used, lookupA s.parent b ≠ none) ∧
  (∀ e ∈ s.data, e.1 ∈ s.used) ∧
  (∀ e ∈ s.parent, e.1 ∈ s.used) ∧
  s.usedBytes = sumUsed s ∧
  s.usedBytes ≤ s.maxBytes.getD s.usedBytes ∧
  (∀ b ∈ s.used, b < s.nextBucket) ∧
  (∀ b ∈ s.free, b < s.nextBucket)

instance (s : Store) : Decidable (StoreInvP s) := by
  unfold StoreInvP
  infer_instance

/-! ## Trivial handler, operation words and example states -/

/-- A delete handler that does nothing (used for store-only runs). -/
def trivialHdl : Hdl Unit := fun _ u => (.ok (), u)

/-- Example store: two used buckets holding 1 and 2 bytes. -/
def exStoreA : Store :=
  { data := [(0, [65]), (1, [66, 67])], parent := [(0, (5, 0)), (1, (7, 0))],
    used := [0, 1], free := [], usedBytes := 3, maxBytes := some 100,
    nextBucket := 2 }

/-- Example store: empty, with a 100-byte budget. -/
def exStoreEmpty : Store :=
  { data := [], parent := [], used := [], free := [], usedBytes := 0,
    maxBytes := some 100, nextBucket := 0 }

/-- Example store: one used bucket with data but no parent link. -/
def exStoreNoParent : Store :=
  { data := [(0, [1, 2, 3, 4, 5])], parent := [], used := [0], free := [],
    usedBytes := 5, maxBytes := none, nextBucket := 1 }

/-- Store operation words for claim C2: the four public mutating operations
of the bucket store, run with a do-nothing delete handler. -/
inductive SOp : Type where
  | putB (pk : Key) (d : List Nat)
  | getB (b : Nat)
  | freeB (b : Nat)
  | delB

/-- Run one store operation; none when the operation fails. -/
def runSOp (op : SOp) (s : Store) : Option Store :=
  match op with
  | .putB pk d =>
    match storePut trivialHdl pk d (s, ()) with
    | (.ok _, (s', _), _) => some s'
    | (.error _, _, _) => none
  | .getB b =>
    match storeGet s b with
    | (.ok _, s') => some s'
    | (.error _, _) => none
  | .freeB b =>
    match freeBucket s b with
    | (.ok _, s') => some s'
    | (.error _, _) => none
  | .delB =>
    match deleteSomething s with
    | (.ok _, s') => some s'
    | (.error _, _) => none

/-- Run a sequence of store operations, each of which must succeed. -/
def runS : List SOp → Store → Option Store
  | [], s => some s
  | op :: t, s =>
    match runSOp op s with
    | none => none
    | some s' => runS t s'

/-- Example operation sequence for the C2 witness. -/
def exOps : List SOp :=
  [.putB (3, 0) [65, 66], .putB (3, 1) [67], .getB 0, .delB]

/-! ## Block map state

Translated from src/block_map.rs (struct FSCacheBlockMap).  The map mirrors
the backing tree under map/; backing paths are opaque atoms here, so the
per-path map directory map/<p> is the atom p, its numbered symlinks are keys
(p, i), and the mtime witness file is an entry of `mtimes`.  `dirs` is the
set of per-path map directories that exist on disk (ancestor-directory
pruning between atoms does not arise for atomic paths). -/

structure MapState : Type where
  /-- targets of the numbered symlinks map/<p>/<i> -/
  blocks : List (Key × Nat)
  /-- contents of the mtime witness files -/
  mtimes : List (Nat × Int)
  /-- which per-path map directories exist -/
  dirs : List Nat
  deriving DecidableEq

/-- FSCacheBlockMap::check_file_mtime result (CacheBlockMapFileResult). -/
inductive MtimeResult : Type where
  | current
  | stale
  | notPresent
  deriving DecidableEq

/-- FSCacheBlockMap::check_file_mtime (src/block_map.rs lines 118-134). -/
def checkFileMtime (m : MapState) (p : Nat) (mt : Int) : MtimeResult :=
  match lookupA m.mtimes p with
  | some n => if n = mt then .current else .stale
  | none => .notPresent

/-- FSCacheBlockMap::set_file_mtime (src/block_map.rs lines 136-146):
create_dir_all for the per-path directory, then write the witness file. -/
def setFileMtime (m : MapState) (p : Nat) (mt : Int) : MapState :=
  { m with dirs := if p ∈ m.dirs then m.dirs else p :: m.dirs,
           mtimes := updateA m.mtimes p mt }

/-- FSCacheBlockMap::get_block (src/block_map.rs lines 148-155): read the
numbered symlink; absence (including an absent directory) is None. -/
def mapGetBlock (m : MapState) (p : Nat) (i : Nat) : Option Nat :=
  lookupA m.blocks (p, i)

/-- FSCacheBlockMap::put_block (src/block_map.rs lines 157-167): makelink
replaces the numbered symlink; creating a symlink in an absent directory
fails with ENOENT. -/
def putBlock (m : MapState) (p : Nat) (i : Nat) (b : Nat) :
    Except Err MapState :=
  if p ∈ m.dirs then .ok { m with blocks := updateA m.blocks (p, i) b }
  else .error .enoent

/-- FSCacheBlockMap::unmap_block (src/block_map.rs lines 186-211): remove
the numbered symlink (ENOENT if absent), then, if the per-path directory
holds no further blocks, remove the witness file; finally prune the per-path
directory if it is now empty (remove_dir stops at ENOTEMPTY; the absent-dir
case propagates ENOENT). -/
def unmapBlock (m : MapState) (k : Key) : Except Err MapState :=
  match lookupA m.blocks k with
  | none => .error .enoent
  | some _ =>
    if k.1 ∈ m.dirs then
      .ok (let blocks2 := eraseA m.blocks k
           let hasAny := blocks2.any (fun e => decide (e.1.1 = k.1))
           { blocks := blocks2,
             mtimes := if hasAny then m.mtimes else eraseA m.mtimes k.1,
             dirs := if hasAny then m.dirs else m.dirs.erase k.1 })
    else .error .enoent

/-- Buckets referenced by the map entries under path p, in directory order:
what FSCacheBlockMap::for_each_block_under_path (src/block_map.rs lines
219-256) yields to its callback. -/
def blocksUnder (m : MapState) (p : Nat) : List Nat :=
  (m.blocks.filter (fun e => decide (e.1.1 = p))).map Prod.snd

/-! ## Engine wiring between map and store

Modelled from the spec: the generic FsCache that connects FSCacheBlockMap
and FsCacheBucketStore is not under src/ (src/fscache.rs holds an older
incompatible revision); section 4.4 fixes the wiring: store evictions call
back into the map through unmap_block, a put publishes the bucket through
put_block, and invalidate_path drives the map walk with the store's
free_bucket as the callback. -/

structure CacheState : Type where
  map : MapState
  store : Store
  deriving DecidableEq

/-- The delete handler the engine passes to store put/init: unmap the
evicted bucket's parent map entry. -/
def unmapHdl : Hdl MapState := fun k m =>
  match unmapBlock m k with
  | .ok m2 => (.ok (), m2)
  | .error e => (.error e, m)

/-- Engine write path for one block: store.put with the unmap handler, then
map.put_block for the returned bucket (spec section 4.4 step 3). -/
def enginePut (cs : CacheState) (p i : Nat) (d : List Nat) :
    Except Err Nat × CacheState × List Nat :=
  match storePut unmapHdl (p, i) d (cs.store, cs.map) with
  | (.error e, (st, mp), log) => (.error e, ⟨mp, st⟩, log)
  | (.ok b, (st, mp), log) =>
    match putBlock mp p i b with
    | .error e => (.error e, ⟨mp, st⟩, log)
    | .ok mp2 => (.ok b, ⟨mp2, st⟩, log)

/-- Engine read path for one cached bucket: store.get (LRU touch). -/
def engineGet (cs : CacheState) (b : Nat) :
    Except Err (List Nat) × CacheState :=
  match storeGet cs.store b with
  | (r, st) => (r, ⟨cs.map, st⟩)

/-- One engine-driven eviction: delete_something plus the unmap callback on
the returned parent path; the log names the evicted bucket. -/
def engineDelete (cs : CacheState) :
    Except Err (Key × Nat) × CacheState × List Nat :=
  match cs.store.used.getLast? with
  | none => (.error .einval, cs, [])
  | some b =>
    match deleteSomething cs.store with
    | (.error e, st) => (.error e, ⟨cs.map, st⟩, [])
    | (.ok (k, n), st) =>
      match unmapBlock cs.map k with
      | .error e => (.error e, ⟨cs.map, st⟩, [b])
      | .ok mp => (.ok (k, n), ⟨mp, st⟩, [b])

/-- Engine witness update: map.set_file_mtime. -/
def engineSetMtime (cs : CacheState) (p : Nat) (mt : Int) : CacheState :=
  ⟨setFileMtime cs.map p mt, cs.store⟩

/-- Free each listed bucket through the store: the callback side of
invalidate_path (FSCacheBlockMap::invalidate_path walks the blocks under the
path and hands each bucket to the engine's free_bucket). -/
def freeBlocksList : List Nat → Store → Except Err Unit × Store
  | [], st => (.ok (), st)
  | b :: t, st =>
    match freeBucket st b with
    | (.error e, st2) => (.error e, st2)
    | (.ok _, st2) => freeBlocksList t st2

/-- FSCacheBlockMap::invalidate_path (src/block_map.rs lines 173-184) wired
with the store's free_bucket callback: for_each_block_under_path (a missing
map directory walks nothing), then fs::remove_dir_all on the per-path map
directory (ENOENT when it does not exist), then prune ancestors (a no-op for
atomic paths). -/
def engineInvalidatePath (cs : CacheState) (p : Nat) :
    Except Err Unit × CacheState :=
  match (if p ∈ cs.map.dirs
         then freeBlocksList (blocksUnder cs.map p) cs.store
         else (.ok (), cs.store)) with
  | (.error e, st) => (.error e, ⟨cs.map, st⟩)
  | (.ok _, st) =>
    if p ∈ cs.map.dirs then
      (.ok (), ⟨{ blocks := cs.map.blocks.filter (fun e => decide (e.1.1 ≠ p)),
                  mtimes := eraseA cs.map.mtimes p,
                  dirs := cs.map.dirs.erase p }, st⟩)
    else (.error .enoent, ⟨cs.map, st⟩)

/-- Engine operation words for claim C3. -/
inductive EOp : Type where
  | putE (p i : Nat) (d : List Nat)
  | getE (b : Nat)
  | delE
  | setMtimeE (p : Nat) (mt : Int)
  deriving DecidableEq

/-- Run one engine operation; the second component logs evicted buckets. -/
def runEOp (op : EOp) (cs : CacheState) : Option (CacheState × List Nat) :=
  match op with
  | .putE p i d =>
    match enginePut cs p i d with
    | (.ok _, cs2, log) => some (cs2, log)
    | (.error _, _, _) => none
  | .getE b =>
    match engineGet cs b with
    | (.ok _, cs2) => some (cs2, [])
    | (.error _, _) => none
  | .delE =>
    match engineDelete cs with
    | (.ok _, cs2, log) => some (cs2, log)
    | (.error _, _, _) => none
  | .setMtimeE p mt => some (engineSetMtime cs p mt, [])

/-- Run a sequence of engine operations, all succeeding, collecting the
evicted buckets. -/
def runE : List EOp → CacheState → Option (CacheState × List Nat)
  | [], cs => some (cs, [])
  | op :: t, cs =>
    match runEOp op cs with
    | none => none
    | some (cs2, log) =>
      match runE t cs2 with
      | none => none
      | some (cs3, log2) => some (cs3, log ++ log2)

/-- Example cache state for the C8 counterexample and C3 witness: path 0 has
block 0 cached in bucket 0, with its witness present. -/
def exCache : CacheState :=
  ⟨{ blocks := [((0, 0), 0)], mtimes := [(0, 1)], dirs := [0] },
   { data := [(0, [65])], parent := [(0, (0, 0))], used := [0], free := [],
     usedBytes := 1, maxBytes := some 100, nextBucket := 1 }⟩

/-- Example cache state with only the map directory and witness for path 0. -/
def exCacheDirOnly : CacheState :=
  ⟨{ blocks := [], mtimes := [(0, 1)], dirs := [0] },
   { data := [], parent := [], used := [], free := [], usedBytes := 0,
     maxBytes := some 100, nextBucket := 0 }⟩

/-- State after filling block (0, 0) of exCacheDirOnly with one byte. -/
def exC3cs1 : CacheState := (enginePut exCacheDirOnly 0 0 [65]).2.1

/-- Result of a get and a witness refresh after that fill. -/
def exC3run : CacheState × List Nat :=
  (runE [EOp.getE 0, EOp.setMtimeE 0 2] exC3cs1).getD (exCacheDirOnly, [])

/-- Running facts for claim C3: between the put that filled bucket b for map
entry k with bytes d and a later get, while b has not been evicted, the
store stays consistent, b stays on the used list with its data and parent
intact. -/
def C3Frame (cs : CacheState) (b : Nat) (k : Key) (d : List Nat) : Prop :=
  StoreInvP cs.store ∧ b ∈ cs.store.used ∧
  lookupA cs.store.data b = some d ∧
  lookupA cs.store.parent b = some k

instance (cs : CacheState) (b : Nat) (k : Key) (d : List Nat) :
    Decidable (C3Frame cs b k d) := by
  unfold C3Frame
  infer_instance

/-! ## The older path-addressed engine (src/fscache.rs with src/fsll.rs)

src/src/fscache.rs holds the engine the fetch claims cite: buckets are
directories holding a data file and a parent symlink, the map holds one
directory per cached path with numbered block symlinks plus an mtime number
file, and the used (bucket_list) and free (free_list) lists are FSLL doubly
linked symlink lists (src/fsll.rs) that share the per-bucket next/prev link
files.  Bucket directories and map paths are numbered by Nat and map
entries by Key, as in the store model above. -/

/-- On-disk state of the old engine's cache directory. -/
structure OldState : Type where
  used : List Nat
  free : List Nat
  data : List (Nat × List Nat)
  parentLink : List (Nat × Key)
  mapBlocks : List (Key × Nat)
  mapMtimes : List (Nat × Int)
  mapDirs : List Nat
  usedBytes : Nat
  maxBytes : Nat
  nextBucket : Nat
  blockSize : Nat
  deriving DecidableEq

/-- Fatal outcomes of the old engine: panic is an `.unwrap()` or
`unreachable!()` abort, diverge is the eviction loop spinning forever. -/
inductive Fatal : Type where
  | panic
  | diverge
  deriving DecidableEq

/-- 2^64: fetch's u64 block arithmetic wraps at this base. -/
def u64Mod : Nat := 2 ^ 64

/-- FSLL::to_head (src/fsll.rs lines 209-269) on a consistent cache.  With
no head and tail anchors (empty used list) get_head_tail errors.  The
equality checks at lines 220 and 228 then reject every properly linked
member of the used list (a mid or tail member because its prev link is set
while it is not the head, the head member because its prev link is unset)
and likewise every member of a free list of two or more buckets, since
both lists store their links in the same per-bucket next/prev files.  An
unlinked bucket, or the sole free bucket, passes the checks and hits the
early `return Ok(())` at line 249 before any relinking.  So on consistent
states the call never mutates, and it succeeds exactly here: -/
def oldToHeadOk (s : OldState) (b : Nat) : Bool :=
  !s.used.isEmpty && !s.used.contains b &&
    (!s.free.contains b || s.free == [b])

/-- FSCache::cached_block (src/fscache.rs lines 253-289): read the map
symlink, promote the bucket with to_head (any FSLL error means a miss),
then read the bucket's data file (a missing file is a miss). -/
def cachedBlock (s : OldState) (p i : Nat) : Option (List Nat) :=
  match lookupA s.mapBlocks (p, i) with
  | none => none
  | some b => if oldToHeadOk s b then lookupA s.data b else none

/-- The middle of FSCache::free_bucket (lines 562-568): if the bucket has
a parent link, remove the map symlink it names and, if that left the
per-path map directory with no block symlinks and no mtime file, remove
the directory (trim_empty_directories, lines 646-669, which stops at the
single-component map root). -/
def oldTrimMap (s : OldState) (b : Nat) : OldState :=
  match lookupA s.parentLink b with
  | none => s
  | some k =>
    let m2 := eraseA s.mapBlocks k
    if m2.any (fun e => decide (e.1.1 = k.1)) ||
        (lookupA s.mapMtimes k.1).isSome then
      { s with mapBlocks := m2 }
    else
      { s with mapBlocks := m2, mapDirs := s.mapDirs.erase k.1 }

/-- FSCache::free_bucket (src/fscache.rs lines 553-586).  Disconnect from
the used list (an error when its anchors are unset, i.e. the list is
empty), insert at the free-list tail, remove the map symlink the bucket's
parent link names and trim the per-path map directory if that left it
empty, remove the parent link itself, then stat the data file: a missing
data file is an error that leaves everything done so far in place;
otherwise the data file is removed and its length subtracted from
used_bytes. -/
def oldFreeBucket (s : OldState) (b : Nat) : Except Err Unit × OldState :=
  if s.used.isEmpty then (.error .einval, s)
  else
    let s2 := oldTrimMap { s with used := s.used.erase b,
                                  free := s.free ++ [b] } b
    let s3 := { s2 with parentLink := eraseA s2.parentLink b }
    match lookupA s3.data b with
    | none => (.error .enoent, s3)
    | some d =>
      (.ok (), { s3 with data := eraseA s3.data b,
                         usedBytes := s3.usedBytes - d.length })

/-- FSCache::free_last_used_bucket (lines 541-551): free the used-list
tail; with no tail it logs an error but returns Ok without freeing. -/
def oldFreeLastUsed (s : OldState) : Except Err Unit × OldState :=
  match s.used.getLast? with
  | some t => oldFreeBucket s t
  | none => (.ok (), s)

/-- FSCache::cached_mtime (lines 404-411): the mtime number file, if
present. -/
def oldCachedMtime (s : OldState) (p : Nat) : Option Int :=
  lookupA s.mapMtimes p

/-- FSCache::write_mtime (lines 423-426): write_number_file creates and
fills the mtime file inside map/<p>, failing with ENOENT when that
directory is absent. -/
def oldWriteMtime (s : OldState) (p : Nat) (m : Int) : Except Err OldState :=
  if s.mapDirs.contains p then
    .ok { s with mapMtimes := updateA s.mapMtimes p m }
  else .error .enoent

/-- One pass of FSCache::invalidate_path_internal's walk (lines 602-637)
over a snapshot of the map entries under the path: each still-present
symlink is resolved and its bucket freed, the `.unwrap()` at line 619
turning a free_bucket error into a panic. -/
def oldInvalidateGo : List Key → OldState → Except Fatal OldState
  | [], s => .ok s
  | k :: t, s =>
    match lookupA s.mapBlocks k with
    | none => oldInvalidateGo t s
    | some b =>
      match oldFreeBucket s b with
      | (.ok _, s2) => oldInvalidateGo t s2
      | (.error _, _) => .error .panic

/-- FSCache::invalidate_path_keep_directories (lines 593-595 and 597-637
with remove_directories = false): a missing map directory returns at once
(lines 626-630); otherwise every block symlink under the path is freed and
the mtime file removed.  The walk is modelled as visiting the block
symlinks first and the mtime file last. -/
def oldInvalidateKeep (s : OldState) (p : Nat) : Except Fatal OldState :=
  if s.mapDirs.contains p then
    match oldInvalidateGo
        ((s.mapBlocks.filter (fun e => decide (e.1.1 = p))).map Prod.fst) s with
    | .error f => .error f
    | .ok s2 => .ok { s2 with mapMtimes := eraseA s2.mapMtimes p }
  else .ok s

/-- FSCache::free_bytes_needed_for_write (lines 181-186); max_bytes = 0
means no limit. -/
def oldBytesNeeded (s : OldState) (len : Nat) : Nat :=
  if s.maxBytes = 0 ∨ s.usedBytes + len ≤ s.maxBytes then 0
  else s.usedBytes + len - s.maxBytes

/-- FSCache::get_bucket / new_bucket (lines 428-451): reuse the free-list
tail if there is one (disconnect it from the free list, insert as used
head), else create the directory for bucket next_bucket_number, bump the
counter, and insert it as the used-list head.  Neither path fails on a
consistent cache. -/
def oldGetBucket (s : OldState) : Nat × OldState :=
  match s.free.getLast? with
  | some b => (b, { s with free := s.free.dropLast, used := b :: s.used })
  | none =>
    (s.nextBucket, { s with nextBucket := s.nextBucket + 1,
                            used := s.nextBucket :: s.used })

/-- The eviction loop of FSCache::write_block_to_cache (lines 474-485):
while free_bytes_needed_for_write is positive, free_last_used_bucket; a
free_bucket error makes write_block_to_cache return early (the Bool is
false), while an empty used list makes free_last_used_bucket a successful
no-op, so the Rust loop never terminates: Fatal.diverge.  Fuel
used.length + 1 always suffices, as every other iteration shortens the
used list. -/
def oldEvictLoop : Nat → Nat → OldState → Except Fatal (Bool × OldState)
  | 0, _, _ => .error .diverge
  | fuel + 1, len, s =>
    if oldBytesNeeded s len = 0 then .ok (true, s)
    else
      match s.used.getLast? with
      | none => .error .diverge
      | some t =>
        match oldFreeBucket s t with
        | (.ok _, s2) => oldEvictLoop fuel len s2
        | (.error _, s2) => .ok (false, s2)

/-- The mtime bookkeeping of FSCache::write_block_to_cache (lines
456-472): an up-to-date cached mtime does nothing; a stale one invalidates
the path keeping directories; an absent one creates the map directory;
then the new mtime is written, an error there making write_block_to_cache
give up (Bool false). -/
def wbPrep (s0 : OldState) (p : Nat) (m : Int) :
    Except Fatal (Bool × OldState) :=
  if oldCachedMtime s0 p = some m then .ok (true, s0)
  else
    match (if (oldCachedMtime s0 p).isSome then oldInvalidateKeep s0 p
           else .ok { s0 with mapDirs :=
                        if s0.mapDirs.contains p then s0.mapDirs
                        else p :: s0.mapDirs }) with
    | .error f => .error f
    | .ok s1 =>
      match oldWriteMtime s1 p m with
      | .error _ => .ok (false, s1)
      | .ok s2 => .ok (true, s2)

/-- FSCache::write_block_to_cache (lines 453-539).  io errors are logged
and swallowed, the function returning () with the state where it stopped;
the `.unwrap()` at line 535 and the eviction loop's divergence are Fatal.
The data file is opened write+create without truncation (lines 496-499),
so the bytes land over whatever the (normally absent) old data file held;
the map symlink then the bucket's parent link are made, a failure (the map
directory being absent) freeing the bucket again, and only on full success
is used_bytes increased. -/
def writeBlockToCache (s0 : OldState) (p i : Nat) (d : List Nat) (m : Int) :
    Except Fatal OldState :=
  match wbPrep s0 p m with
  | .error f => .error f
  | .ok (false, s1) => .ok s1
  | .ok (true, s1) =>
    match oldEvictLoop (s1.used.length + 1) d.length s1 with
    | .error f => .error f
    | .ok (false, s2) => .ok s2
    | .ok (true, s2) =>
      let b := (oldGetBucket s2).1
      let s3 := (oldGetBucket s2).2
      let leftover := ((lookupA s3.data b).getD []).drop d.length
      let s4 := { s3 with data := updateA s3.data b (d ++ leftover) }
      if s4.mapDirs.contains p then
        .ok { s4 with mapBlocks := updateA s4.mapBlocks (p, i) b,
                      parentLink := updateA s4.parentLink b (p, i),
                      usedBytes := s4.usedBytes + d.length }
      else
        match oldFreeBucket s4 b with
        | (.ok _, s5) => .ok s5
        | (.error _, _) => .error .panic

/-- A positioned read of the backing file with content D: seek to pos and
read up to len bytes (fetch lines 772-785, including the truncation of the
buffer to the bytes actually read at lines 783-785). -/
def oldReadAt (D : List Nat) (pos len : Nat) : List Nat :=
  (D.drop pos).take len

/-- One block acquisition in FSCache::fetch (lines 758-791): a cache hit
returns the cached bytes; a miss reads the block from the backing file,
appends (block, nread) to the log of backing reads, and calls
write_block_to_cache (whose Fatal outcomes propagate). -/
def oldFetchBlock (s : OldState) (p block B : Nat) (D : List Nat) (m : Int)
    (log : List (Nat × Nat)) :
    Except Fatal (List Nat × OldState × List (Nat × Nat)) :=
  match cachedBlock s p block with
  | some dHit => .ok (dHit, s, log)
  | none =>
    let buf := oldReadAt D (block * B) B
    match writeBlockToCache s p block buf m with
    | .error f => .error f
    | .ok s1 => .ok (buf, s1, log ++ [(block, buf.length)])

/-- The block loop of FSCache::fetch (lines 755-849).  Per iteration:
acquire the block, compute block_start (nonzero only on the first block)
and block_end (u64 wrapping subtraction on the last block, the block size
otherwise), `continue` when block_end is zero, clamp block_end to nread,
return empty bytes when block_start exceeds block_end, and extend the
result with the requested slice — returning it on the single-block fast
path and stopping when the read came up short.  The components of the
result are the bytes (or a Fatal outcome), the state, and the log of
backing-file reads. -/
def oldFetchGo (p offset size first last B : Nat) (D : List Nat) (m : Int) :
    Nat → Nat → List Nat → OldState → List (Nat × Nat) →
    Except Fatal (List Nat) × OldState × List (Nat × Nat)
  | 0, _, acc, s, log => (.ok acc, s, log)
  | fuel + 1, block, acc, s, log =>
    match oldFetchBlock s p block B D m log with
    | .error f => (.error f, s, log)
    | .ok (bd, s1, log1) =>
      let nread := bd.length
      let bs := if block = first then offset - block * B else 0
      let beRaw := if block = last
                   then ((offset + size) % u64Mod + u64Mod - block * B) % u64Mod
                   else B
      if beRaw = 0 then
        oldFetchGo p offset size first last B D m fuel (block + 1) acc s1 log1
      else
        let be := if nread < beRaw then nread else beRaw
        if be < bs then (.ok [], s1, log1)
        else if bs ≠ 0 ∨ be ≠ nread then
          let acc2 := acc ++ (bd.drop bs).take (be - bs)
          if nread < B then (.ok acc2, s1, log1)
          else oldFetchGo p offset size first last B D m fuel (block + 1) acc2 s1 log1
        else if block = first ∧ block = last then (.ok bd, s1, log1)
        else
          let acc2 := acc ++ bd
          if nread < B then (.ok acc2, s1, log1)
          else oldFetchGo p offset size first last B D m fuel (block + 1) acc2 s1 log1

/-- FSCache::fetch (src/fscache.rs lines 737-852).  The i64 mtime is taken
from file.metadata().mtime() at line 738 — a property of the backing
file's stat data, passed here as metaMtime.  A cached mtime mismatch
invalidates the path keeping directories (lines 740-746).  A zero block
size then panics at the division on line 748.  first_block = offset / B
and last_block = (offset + size - 1) / B in wrapping u64 arithmetic, and
the loop runs from first_block while the counter stays below the wrapped
last_block + 1. -/
def oldFetch (s : OldState) (p offset size : Nat) (D : List Nat)
    (metaMtime : Int) :
    Except Fatal (List Nat) × OldState × List (Nat × Nat) :=
  match (if oldCachedMtime s p = some metaMtime then Except.ok s
         else oldInvalidateKeep s p) with
  | .error f => (.error f, s, [])
  | .ok s1 =>
    if s.blockSize = 0 then (.error .panic, s1, [])
    else
      let B := s.blockSize
      let first := offset / B
      let last := (((offset + size) % u64Mod + (u64Mod - 1)) % u64Mod) / B
      oldFetchGo p offset size first last B D metaMtime
        ((last + 1) % u64Mod - first) first [] s1 []

/-- Consistency of the old cache's map at path p: every mapped bucket is
on the used list or has no data file.  States reached by the engine
satisfy this, and a successful fetch needs it for its bytes to be the
backing slice (a mapped bucket off the used list with a data file would be
served from the cache without to_head failing). -/
def MapConsistent (s : OldState) (p : Nat) : Prop :=
  ∀ i b : Nat, lookupA s.mapBlocks (p, i) = some b →
    b ∈ s.used ∨ lookupA s.data b = none

/-- Empty old-engine cache with 16-byte blocks and a 100-byte limit. -/
def exOldEmpty : OldState :=
  { used := [], free := [], data := [], parentLink := [], mapBlocks := [],
    mapMtimes := [], mapDirs := [], usedBytes := 0, maxBytes := 100,
    nextBucket := 0, blockSize := 16 }

/-- Empty old-engine cache with 10-byte blocks, the setup of the repo's
test_fscache_out_of_range_read. -/
def exOldB10 : OldState := { exOldEmpty with blockSize := 10 }

/-- Empty old-engine cache with 2-byte blocks. -/
def exOldB2 : OldState := { exOldEmpty with blockSize := 2 }

/-- The repo tests' 15-byte backing content "ABCDEFGHIJKLMN!". -/
def exD15 : List Nat :=
  [65, 66, 67, 68, 69, 70, 71, 72, 73, 74, 75, 76, 77, 78, 33]

-- INSERT-MORE-DEFS

/-! ## Association list and list lemmas -/

theorem eraseA_cons {α β : Type} [DecidableEq α] (e : α × β) (t : List (α × β)) (a : α) :
    eraseA (e :: t) a = if e.1 = a then eraseA t a else e :: eraseA t a := by
  by_cases h : e.1 = a <;> simp [eraseA, List.filter_cons, h]

theorem lookupA_eraseA_self {α β : Type} [DecidableEq α] (l : List (α × β)) (a : α) :
    lookupA (eraseA l a) a = none := by
  induction l with
  | nil => rfl
  | cons e t ih =>
    rw [eraseA_cons]
    by_cases h : e.1 = a
    · simpa [h] using ih
    · simpa [lookupA, h] using ih

theorem lookupA_eraseA_ne {α β : Type} [DecidableEq α] (l : List (α × β)) (a a' : α)
    (h : a' ≠ a) : lookupA (eraseA l a) a' = lookupA l a' := by
  induction l with
  | nil => rfl
  | cons e t ih =>
    rw [eraseA_cons]
    by_cases he : e.1 = a
    · have hne : e.1 ≠ a' := by
        intro hc
        exact h (hc ▸ he ▸ rfl)
      rw [if_pos he, ih]
      simp [lookupA, hne]
    · rw [if_neg he]
      by_cases he' : e.1 = a'
      · simp [lookupA, he']
      · simpa [lookupA, he'] using ih

theorem lookupA_updateA_self {α β : Type} [DecidableEq α] (l : List (α × β)) (a : α) (b : β) :
    lookupA (updateA l a b) a = some b := by
  simp [updateA, lookupA]

theorem lookupA_updateA_ne {α β : Type} [DecidableEq α] (l : List (α × β)) (a a' : α) (b : β)
    (h : a' ≠ a) : lookupA (updateA l a b) a' = lookupA l a' := by
  simp only [updateA, lookupA]
  rw [if_neg (by intro hc; exact h hc.symm)]
  exact lookupA_eraseA_ne l a a' h

/-! ## More association list and sum lemmas -/

theorem lookupA_some_mem {α β : Type} [DecidableEq α] {l : List (α × β)} {a : α} {v : β}
    (h : lookupA l a = some v) : (a, v) ∈ l := by
  induction l with
  | nil => simp [lookupA] at h
  | cons e t ih =>
    by_cases he : e.1 = a
    · simp only [lookupA, if_pos he] at h
      have : e = (a, v) := by
        cases e
        cases h
        cases he
        rfl
      simp [this]
    · simp only [lookupA, if_neg he] at h
      exact List.mem_cons_of_mem _ (ih h)

theorem mem_of_mem_eraseA {α β : Type} [DecidableEq α] {l : List (α × β)} {a : α}
    {e : α × β} (h : e ∈ eraseA l a) : e ∈ l :=
  List.mem_of_mem_filter h

theorem sum_map_erase (f : Nat → Nat) {l : List Nat} {b : Nat} (hb : b ∈ l) :
    (l.map f).sum = f b + ((l.erase b).map f).sum := by
  have hp := List.perm_cons_erase hb
  simpa using (hp.map f).sum_eq

theorem sum_map_congr {l : List Nat} {f g : Nat → Nat} (h : ∀ b ∈ l, f b = g b) :
    (l.map f).sum = (l.map g).sum := by
  induction l with
  | nil => rfl
  | cons a t ih =>
    have ha := h a (List.mem_cons_self a t)
    have ht := ih (fun b hb => h b (List.mem_cons_of_mem _ hb))
    simp [ha, ht]

theorem erase_getLast_eq_dropLast {l : List Nat} {b : Nat} (hn : l.Nodup)
    (hb : l.getLast? = some b) : l.erase b = l.dropLast := by
  have hne : l ≠ [] := by
    intro hnil
    rw [hnil] at hb
    simp at hb
  have hl : l.dropLast ++ [l.getLast hne] = l := List.dropLast_append_getLast hne
  have hbl : l.getLast hne = b := by
    have := List.getLast?_eq_getLast l hne
    rw [this] at hb
    exact Option.some_injective _ hb
  have hnotin : b ∉ l.dropLast := by
    intro hmem
    have : l.Nodup := hn
    rw [← hl, hbl] at this
    have := List.disjoint_of_nodup_append this
    exact this hmem (List.mem_singleton_self b)
  conv_lhs => rw [← hl, hbl]
  rw [List.erase_append_right _ hnotin]
  simp

theorem StoreInvP.le_max {s : Store} (h : StoreInvP s) :
    ∀ m, s.maxBytes = some m → s.usedBytes ≤ m := by
  intro m hm
  have := h.2.2.2.2.2.2.2.1
  rwa [hm, Option.getD_some] at this

/-! ## Characterization of the store operations -/

theorem storeGet_ok {s : Store} {b : Nat} {d : List Nat} {s' : Store}
    (h : storeGet s b = (.ok d, s')) :
    b ∈ s.used ∧ lookupA s.data b = some d ∧
    s' = { s with used := b :: s.used.erase b } := by
  unfold storeGet at h
  by_cases hb : b ∈ s.used
  · rw [llToHead, if_pos hb] at h
    cases hd : lookupA s.data b with
    | none => simp [hd] at h
    | some d0 =>
      simp only [hd] at h
      have h1 : d0 = d := by
        have := congrArg Prod.fst h
        simpa using this
      have h2 := congrArg Prod.snd h
      simp at h2
      exact ⟨hb, congrArg some h1, h2.symm⟩
  · rw [llToHead, if_neg hb] at h
    simp at h

theorem storeGet_spec {s : Store} {b : Nat} {d : List Nat}
    (hb : b ∈ s.used) (hd : lookupA s.data b = some d) :
    storeGet s b = (.ok d, { s with used := b :: s.used.erase b }) := by
  unfold storeGet
  rw [llToHead, if_pos hb]
  simp [hd]

theorem freeBucket_spec {s : Store} {b : Nat}
    (hu : b ∈ s.used) (hf : b ∉ s.free) (hp : lookupA s.parent b ≠ none) :
    freeBucket s b =
      (.ok (dataLen s b),
       { s with used := s.used.erase b, free := s.free ++ [b],
                data := eraseA s.data b, parent := eraseA s.parent b,
                usedBytes := s.usedBytes - dataLen s b }) := by
  unfold freeBucket
  rw [llDisconnect, if_pos hu, llInsertAsTail, if_neg hf]
  cases hpe : lookupA s.parent b with
  | none => exact absurd hpe hp
  | some k => simp [hpe, dataLen]

/-- Claim C10 statement: free_bucket on a used bucket whose parent link is
absent errors, yet has already disconnected the bucket from the used list,
pushed it to the free-list tail and removed its data file, without
decrementing used_bytes. -/
theorem freeBucket_no_parent {s : Store} {b : Nat}
    (hu : b ∈ s.used) (hf : b ∉ s.free) (hp : lookupA s.parent b = none) :
    freeBucket s b =
      (.error .enoent,
       { s with used := s.used.erase b, free := s.free ++ [b],
                data := eraseA s.data b }) := by
  unfold freeBucket
  rw [llDisconnect, if_pos hu, llInsertAsTail, if_neg hf]
  simp [hp]

theorem deleteSomething_spec {s : Store} {b : Nat} {k : Key}
    (hb : s.used.getLast? = some b) (hk : lookupA s.parent b = some k)
    (hf : b ∉ s.free) :
    deleteSomething s =
      (.ok (k, dataLen s b),
       { s with used := s.used.erase b, free := s.free ++ [b],
                data := eraseA s.data b, parent := eraseA s.parent b,
                usedBytes := s.usedBytes - dataLen s b }) := by
  have hu : b ∈ s.used := List.mem_of_getLast?_eq_some hb
  unfold deleteSomething
  rw [hb]
  simp only [hk]
  rw [freeBucket_spec hu hf (by simp [hk])]

theorem deleteSomething_empty {s : Store} (h : s.used = []) :
    deleteSomething s = (.error .einval, s) := by
  unfold deleteSomething
  rw [h]
  rfl

theorem freeBucket_ok {s : Store} {b : Nat} {n : Nat} {s' : Store}
    (h : freeBucket s b = (.ok n, s')) :
    b ∈ s.used ∧ b ∉ s.free ∧ n = dataLen s b ∧
    s' = { s with used := s.used.erase b, free := s.free ++ [b],
                  data := eraseA s.data b, parent := eraseA s.parent b,
                  usedBytes := s.usedBytes - dataLen s b } := by
  by_cases hu : b ∈ s.used
  · by_cases hf : b ∈ s.free
    · unfold freeBucket at h
      rw [llDisconnect, if_pos hu, llInsertAsTail, if_pos hf] at h
      simp at h
    · cases hp : lookupA s.parent b with
      | none =>
        rw [freeBucket_no_parent hu hf hp] at h
        simp at h
      | some k =>
        rw [freeBucket_spec hu hf (by simp [hp])] at h
        have h1 : dataLen s b = n := by
          have := congrArg Prod.fst h
          simpa using this
        have h2 := congrArg Prod.snd h
        simp only at h2
        exact ⟨hu, hf, h1.symm, h2.symm⟩
  · unfold freeBucket at h
    rw [llDisconnect, if_neg hu] at h
    simp at h

theorem deleteSomething_ok {s : Store} {k : Key} {n : Nat} {s' : Store}
    (h : deleteSomething s = (.ok (k, n), s')) :
    ∃ b, s.used.getLast? = some b ∧ lookupA s.parent b = some k ∧
      freeBucket s b = (.ok n, s') := by
  unfold deleteSomething at h
  cases hb : s.used.getLast? with
  | none => rw [hb] at h; simp at h
  | some b =>
    rw [hb] at h
    cases hp : lookupA s.parent b with
    | none => simp [hp] at h
    | some k0 =>
      simp only [hp] at h
      cases hfb : freeBucket s b with
      | mk r s2 =>
        cases r with
        | error e => rw [hfb] at h; simp at h
        | ok m =>
          rw [hfb] at h
          simp only [Prod.mk.injEq, Except.ok.injEq] at h
          obtain ⟨⟨hk, hn⟩, hs⟩ := h
          exact ⟨b, rfl, hp.trans (congrArg some hk), hfb.trans (by rw [hn, hs])⟩

theorem getBucket_ok {s : Store} {b : Nat} {s2 : Store}
    (h : getBucket s = (.ok b, s2)) :
    s2.used = b :: s.used ∧ s2.data = s.data ∧ s2.parent = s.parent ∧
    s2.usedBytes = s.usedBytes ∧ s2.maxBytes = s.maxBytes ∧ b ∉ s.used ∧
    ((s.free = [] ∧ b = s.nextBucket ∧ s2.free = s.free ∧
      s2.nextBucket = s.nextBucket + 1) ∨
     (b ∈ s.free ∧ s2.free = s.free.erase b ∧ s2.nextBucket = s.nextBucket)) := by
  unfold getBucket at h
  by_cases hfe : s.free.isEmpty
  · rw [if_pos hfe] at h
    by_cases hmem : s.nextBucket ∈ s.used
    · rw [llInsertAsHead, if_pos hmem] at h
      simp at h
    · rw [llInsertAsHead, if_neg hmem] at h
      simp only [Prod.mk.injEq, Except.ok.injEq] at h
      obtain ⟨hb, hs⟩ := h
      subst hb
      subst hs
      exact ⟨rfl, rfl, rfl, rfl, rfl, hmem,
        Or.inl ⟨List.isEmpty_iff.mp hfe, rfl, rfl, rfl⟩⟩
  · rw [if_neg hfe] at h
    cases ht : s.free.getLast? with
    | none =>
      rw [ht] at h
      simp at h
    | some c =>
      rw [ht] at h
      dsimp only at h
      have hcf : c ∈ s.free := List.mem_of_getLast?_eq_some ht
      rw [llDisconnect, if_pos hcf] at h
      by_cases hcu : c ∈ s.used
      · rw [llInsertAsHead, if_pos hcu] at h
        simp at h
      · rw [llInsertAsHead, if_neg hcu] at h
        simp only [Prod.mk.injEq, Except.ok.injEq] at h
        obtain ⟨hb, hs⟩ := h
        subst hb
        subst hs
        exact ⟨rfl, rfl, rfl, rfl, rfl, hcu, Or.inr ⟨hcf, rfl, rfl⟩⟩

theorem storePut_ok_head {σ : Type} {h : Hdl σ} {pk : Key} {d : List Nat}
    {s : Store} {x : σ} {b : Nat} {s' : Store} {x' : σ} {log : List Nat}
    (hp : storePut h pk d (s, x) = (.ok b, (s', x'), log)) :
    s'.used.head? = some b := by
  unfold storePut at hp
  cases he : evictLoop h d.length (s.used.length + 1) (s, x) with
  | mk r rest =>
    obtain ⟨⟨s1, x1⟩, log1⟩ := rest
    cases r with
    | error e => rw [he] at hp; simp at hp
    | ok u =>
      rw [he] at hp
      dsimp only at hp
      cases hg : getBucket s1 with
      | mk r2 s2 =>
        cases r2 with
        | error e => rw [hg] at hp; simp at hp
        | ok b2 =>
          rw [hg] at hp
          dsimp only at hp
          simp only [Prod.mk.injEq, Except.ok.injEq] at hp
          obtain ⟨hb2, ⟨hs, _⟩, _⟩ := hp
          have := (getBucket_ok hg).1
          subst hb2
          rw [← hs]
          simp [this]

/-- Claim C9: delete_something evicts exactly the used-list tail, returns
the tail bucket's parent map path with the number of bytes freed, and fails
with EINVAL when the used list is empty. -/
theorem C9_delete_something_contract :
    (∀ s : Store, s.used = [] → deleteSomething s = (.error .einval, s)) ∧
    (∀ (s : Store) (b : Nat) (k : Key) (d : List Nat),
      s.used.getLast? = some b → s.used.Nodup → b ∉ s.free →
      lookupA s.parent b = some k → lookupA s.data b = some d →
      deleteSomething s =
        (.ok (k, d.length),
         { s with used := s.used.dropLast, free := s.free ++ [b],
                  data := eraseA s.data b, parent := eraseA s.parent b,
                  usedBytes := s.usedBytes - d.length })) := by
  refine ⟨fun s h => deleteSomething_empty h, ?_⟩
  intro s b k d hb hn hf hk hd
  have hdl : dataLen s b = d.length := by
    simp [dataLen, hd]
  have := deleteSomething_spec hb hk hf
  rw [erase_getLast_eq_dropLast hn hb, hdl] at this
  exact this

/-- Witness for C9: on exStoreA, delete_something removes bucket 1 (the
tail), hands back its parent map path (7, 0) and 2 freed bytes. -/
theorem C9_witness :
    deleteSomething exStoreA =
      (.ok ((7, 0), 2),
       { exStoreA with used := exStoreA.used.dropLast,
                       free := exStoreA.free ++ [1],
                       data := eraseA exStoreA.data 1,
                       parent := eraseA exStoreA.parent 1,
                       usedBytes := exStoreA.usedBytes - 2 }) := by
  exact C9_delete_something_contract.2 exStoreA 1 (7, 0) [66, 67] (by decide)
    (by decide) (by decide) (by decide) (by decide)

/-- Claim C10: calling free_bucket on a used bucket whose parent link is
absent returns an error, but the bucket has already been disconnected from
the used list, inserted at the free-list tail, and its data file removed,
while used_bytes was not decremented. -/
theorem C10_free_bucket_error_side_effects {s : Store} {b : Nat}
    (hn : s.used.Nodup) (hu : b ∈ s.used) (hf : b ∉ s.free)
    (hp : lookupA s.parent b = none) :
    ∃ e s', freeBucket s b = (.error e, s') ∧
      b ∉ s'.used ∧ s'.free.getLast? = some b ∧ lookupA s'.data b = none ∧
      s'.usedBytes = s.usedBytes := by
  refine ⟨.enoent, _, freeBucket_no_parent hu hf hp, ?_, ?_, ?_, rfl⟩
  · intro hmem
    have := (List.Nodup.mem_erase_iff hn).mp hmem
    exact this.1 rfl
  · simp
  · exact lookupA_eraseA_self _ _

/-- Witness for C10: bucket 0 of exStoreNoParent has data but no parent
link; free_bucket errors yet the bucket ends up disconnected, on the free
list, without data, and used_bytes is still 5. -/
theorem C10_witness :
    ∃ e s', freeBucket exStoreNoParent 0 = (.error e, s') ∧
      0 ∉ s'.used ∧ s'.free.getLast? = some 0 ∧ lookupA s'.data 0 = none ∧
      s'.usedBytes = exStoreNoParent.usedBytes :=
  C10_free_bucket_error_side_effects (by decide) (by decide) (by decide)
    (by decide)

/-- Claim C4: every successful get and every successful put leaves the
affected bucket at the head of the used list, and delete_something (the sole
eviction primitive, called by put's and init's eviction loops) removes
exactly the used-list tail. -/
theorem C4_lru_discipline :
    (∀ (s : Store) (b : Nat) (d : List Nat) (s' : Store),
      storeGet s b = (.ok d, s') → s'.used.head? = some b) ∧
    (∀ (σ : Type) (h : Hdl σ) (pk : Key) (d : List Nat) (s : Store) (x : σ)
      (b : Nat) (s' : Store) (x' : σ) (log : List Nat),
      storePut h pk d (s, x) = (.ok b, (s', x'), log) →
      s'.used.head? = some b) ∧
    (∀ (s : Store) (k : Key) (n : Nat) (s' : Store),
      s.used.Nodup → deleteSomething s = (.ok (k, n), s') →
      ∃ b, s.used.getLast? = some b ∧ s'.used = s.used.dropLast ∧
        s'.free.getLast? = some b ∧ lookupA s'.data b = none) := by
  refine ⟨?_, ?_, ?_⟩
  · intro s b d s' h
    have := (storeGet_ok h).2.2
    subst this
    rfl
  · intro σ h pk d s x b s' x' log hp
    exact storePut_ok_head hp
  · intro s k n s' hn h
    obtain ⟨b, hb, hk, hfb⟩ := deleteSomething_ok h
    obtain ⟨hu, hf, hn2, hs⟩ := freeBucket_ok hfb
    subst hs
    refine ⟨b, hb, ?_, by simp, lookupA_eraseA_self _ _⟩
    simpa using erase_getLast_eq_dropLast hn hb

theorem SInv_storeGet {s : Store} {b : Nat} {d : List Nat} {s' : Store}
    (hi : StoreInvP s) (h : storeGet s b = (.ok d, s')) : StoreInvP s' := by
  obtain ⟨hb, hd, hs⟩ := storeGet_ok h
  obtain ⟨n1, n2, dj, up, dd, pd, sz, mx, ul, fl⟩ := hi
  subst hs
  have hbne : b ∉ s.used.erase b := fun hmem =>
    ((List.Nodup.mem_erase_iff n1).mp hmem).1 rfl
  refine ⟨List.nodup_cons.mpr ⟨hbne, n1.erase b⟩, n2, ?_, ?_, ?_, ?_, ?_, mx,
    ?_, fl⟩
  · intro b' hb'
    rcases List.mem_cons.mp hb' with rfl | hmem
    · exact dj b' hb
    · exact dj b' (List.mem_of_mem_erase hmem)
  · intro b' hb'
    rcases List.mem_cons.mp hb' with rfl | hmem
    · exact up b' hb
    · exact up b' (List.mem_of_mem_erase hmem)
  · intro e he
    have hm := dd e he
    by_cases hbe : e.1 = b
    · rw [hbe]
      exact List.mem_cons_self _ _
    · exact List.mem_cons_of_mem _ ((List.Nodup.mem_erase_iff n1).mpr ⟨hbe, hm⟩)
  · intro e he
    have hm := pd e he
    by_cases hbe : e.1 = b
    · rw [hbe]
      exact List.mem_cons_self _ _
    · exact List.mem_cons_of_mem _ ((List.Nodup.mem_erase_iff n1).mpr ⟨hbe, hm⟩)
  · have hp := List.perm_cons_erase hb
    exact sz.trans ((hp.map (fun x => dataLen s x)).sum_eq)
  · intro b' hb'
    rcases List.mem_cons.mp hb' with rfl | hmem
    · exact ul b' hb
    · exact ul b' (List.mem_of_mem_erase hmem)

theorem SInv_freeBucket {s : Store} {b : Nat} {n : Nat} {s' : Store}
    (hi : StoreInvP s) (h : freeBucket s b = (.ok n, s')) : StoreInvP s' := by
  obtain ⟨hu, hf, hn, hs⟩ := freeBucket_ok h
  obtain ⟨n1, n2, dj, up, dd, pd, sz, mx, ul, fl⟩ := hi
  subst hs
  refine ⟨n1.erase b, ?_, ?_, ?_, ?_, ?_, ?_, ?_, ?_, ?_⟩
  · rw [List.nodup_append]
    refine ⟨n2, List.nodup_singleton b, ?_⟩
    intro x hx hxb
    rw [List.mem_singleton.mp hxb] at hx
    exact hf hx
  · intro b' hb'
    obtain ⟨hne, hmem⟩ := (List.Nodup.mem_erase_iff n1).mp hb'
    intro hc
    rcases List.mem_append.mp hc with hc1 | hc2
    · exact dj b' hmem hc1
    · exact hne (List.mem_singleton.mp hc2)
  · intro b' hb'
    obtain ⟨hne, hmem⟩ := (List.Nodup.mem_erase_iff n1).mp hb'
    rw [lookupA_eraseA_ne _ _ _ hne]
    exact up b' hmem
  · intro e he
    have hm := dd e (mem_of_mem_eraseA he)
    have hne : e.1 ≠ b := of_decide_eq_true (List.mem_filter.mp he).2
    exact (List.Nodup.mem_erase_iff n1).mpr ⟨hne, hm⟩
  · intro e he
    have hm := pd e (mem_of_mem_eraseA he)
    have hne : e.1 ≠ b := of_decide_eq_true (List.mem_filter.mp he).2
    exact (List.Nodup.mem_erase_iff n1).mpr ⟨hne, hm⟩
  · unfold sumUsed dataLen
    dsimp only
    have hcong : ∀ b' ∈ s.used.erase b,
        ((lookupA (eraseA s.data b) b').map List.length).getD 0 =
          ((lookupA s.data b').map List.length).getD 0 := by
      intro b' hb'
      rw [lookupA_eraseA_ne _ _ _ ((List.Nodup.mem_erase_iff n1).mp hb').1]
    rw [sum_map_congr hcong]
    have h1 :=
      sum_map_erase (fun x => ((lookupA s.data x).map List.length).getD 0) hu
    unfold sumUsed dataLen at sz
    rw [sz, h1]
    simp
  · dsimp only
    cases hmb : s.maxBytes with
    | none => simp
    | some m =>
      rw [hmb] at mx
      simp only [Option.getD_some] at mx ⊢
      omega
  · intro b' hb'
    exact ul b' (List.mem_of_mem_erase hb')
  · intro b' hb'
    rcases List.mem_append.mp hb' with hc1 | hc2
    · exact fl b' hc1
    · rw [List.mem_singleton.mp hc2]
      exact ul b hu

theorem SInv_deleteSomething {s : Store} {k : Key} {n : Nat} {s' : Store}
    (hi : StoreInvP s) (h : deleteSomething s = (.ok (k, n), s')) :
    StoreInvP s' := by
  obtain ⟨b, hb, hk, hfb⟩ := deleteSomething_ok h
  exact SInv_freeBucket hi hfb

theorem evictLoop_ok {σ : Type} {h : Hdl σ} {len : Nat} {fuel : Nat}
    {s : Store} {x : σ} {s' : Store} {x' : σ} {log : List Nat}
    (hi : StoreInvP s)
    (he : evictLoop h len fuel (s, x) = (.ok (), (s', x'), log)) :
    StoreInvP s' ∧ bytesNeeded s' len = 0 := by
  induction fuel generalizing s x log with
  | zero => simp [evictLoop] at he
  | succ fl ih =>
    simp only [evictLoop] at he
    by_cases hz : bytesNeeded s len = 0
    · rw [if_pos hz] at he
      simp only [Prod.mk.injEq] at he
      obtain ⟨_, ⟨hs, _⟩, _⟩ := he
      rw [← hs]
      exact ⟨hi, hz⟩
    · rw [if_neg hz] at he
      cases hlast : s.used.getLast? with
      | none =>
        rw [hlast] at he
        simp at he
      | some b =>
        rw [hlast] at he
        dsimp only at he
        cases hds : deleteSomething s with
        | mk r s2 =>
          cases r with
          | error e =>
            rw [hds] at he
            simp at he
          | ok kn =>
            obtain ⟨k, nn⟩ := kn
            rw [hds] at he
            dsimp only at he
            cases hh : h k x with
            | mk r2 x2 =>
              cases r2 with
              | error e =>
                rw [hh] at he
                simp at he
              | ok u =>
                rw [hh] at he
                dsimp only at he
                cases hrec : evictLoop h len fl (s2, x2) with
                | mk r3 rest =>
                  obtain ⟨⟨s3, x3⟩, log3⟩ := rest
                  rw [hrec] at he
                  dsimp only at he
                  simp only [Prod.mk.injEq] at he
                  obtain ⟨hr3, ⟨hs3, hx3⟩, hlog⟩ := he
                  have hi2 : StoreInvP s2 := SInv_deleteSomething hi hds
                  have := ih hi2 (by rw [hrec, hr3, hs3, hx3])
                  exact this

theorem SInv_storePut {σ : Type} {h : Hdl σ} {pk : Key} {d : List Nat}
    {s : Store} {x : σ} {b : Nat} {s' : Store} {x' : σ} {log : List Nat}
    (hi : StoreInvP s)
    (hp : storePut h pk d (s, x) = (.ok b, (s', x'), log)) : StoreInvP s' := by
  unfold storePut at hp
  cases he : evictLoop h d.length (s.used.length + 1) (s, x) with
  | mk r rest =>
    obtain ⟨⟨s1, x1⟩, log1⟩ := rest
    cases r with
    | error e =>
      rw [he] at hp
      simp at hp
    | ok u =>
      rw [he] at hp
      dsimp only at hp
      obtain ⟨hi1, hneed⟩ := evictLoop_ok hi he
      cases hg : getBucket s1 with
      | mk r2 s2 =>
        cases r2 with
        | error e =>
          rw [hg] at hp
          simp at hp
        | ok b2 =>
          rw [hg] at hp
          dsimp only at hp
          simp only [Prod.mk.injEq, Except.ok.injEq] at hp
          obtain ⟨hb2, ⟨hs, hx⟩, hlog⟩ := hp
          subst hb2
          rw [← hs]
          obtain ⟨hused, hdata, hparent, hbytes, hmax, hnotin, hcase⟩ :=
            getBucket_ok hg
          obtain ⟨m1, m2, mdj, mup, mdd, mpd, msz, mmx, mul, mfl⟩ := hi1
          have hfree2 : ∀ b' , b' ∈ s2.free → b' ∈ s1.free := by
            rcases hcase with ⟨_, _, hfr, _⟩ | ⟨_, hfr, _⟩
            · rw [hfr]
              exact fun b' hb' => hb'
            · rw [hfr]
              exact fun b' hb' => List.mem_of_mem_erase hb'
          have hbnotfree2 : b2 ∉ s2.free := by
            rcases hcase with ⟨hemp, hbv, hfr, _⟩ | ⟨hbf, hfr, _⟩
            · rw [hfr, hemp]
              simp
            · rw [hfr]
              intro hc
              exact ((List.Nodup.mem_erase_iff m2).mp hc).1 rfl
          have hfree2nodup : s2.free.Nodup := by
            rcases hcase with ⟨_, _, hfr, _⟩ | ⟨_, hfr, _⟩
            · rw [hfr]; exact m2
            · rw [hfr]; exact m2.erase b2
          have hdlb2 : lookupA s1.data b2 = none := by
            cases hdl : lookupA s1.data b2 with
            | none => rfl
            | some v =>
              exfalso
              have := mdd _ (lookupA_some_mem hdl)
              exact hnotin this
          refine ⟨?_, hfree2nodup, ?_, ?_, ?_, ?_, ?_, ?_, ?_, ?_⟩
          · dsimp only
            rw [hused]
            exact List.nodup_cons.mpr ⟨hnotin, m1⟩
          · dsimp only
            rw [hused]
            intro b' hb'
            rcases List.mem_cons.mp hb' with rfl | hmem
            · exact hbnotfree2
            · intro hc
              exact mdj b' hmem (hfree2 b' hc)
          · dsimp only
            rw [hused]
            intro b' hb'
            rcases List.mem_cons.mp hb' with rfl | hmem
            · rw [hparent, lookupA_updateA_self]
              simp
            · have hne : b' ≠ b2 := fun hc => hnotin (hc ▸ hmem)
              rw [hparent, lookupA_updateA_ne _ _ _ _ hne]
              exact mup b' hmem
          · dsimp only
            rw [hused, hdata]
            intro e he2
            rcases List.mem_cons.mp he2 with rfl | hmem
            · exact List.mem_cons_self _ _
            · exact List.mem_cons_of_mem _ (mdd e (mem_of_mem_eraseA hmem))
          · dsimp only
            rw [hused, hparent]
            intro e he2
            rcases List.mem_cons.mp he2 with rfl | hmem
            · exact List.mem_cons_self _ _
            · exact List.mem_cons_of_mem _ (mpd e (mem_of_mem_eraseA hmem))
          · dsimp only
            unfold sumUsed dataLen
            dsimp only
            rw [hused, hdata, hbytes, msz]
            simp only [List.map_cons, List.sum_cons, lookupA_updateA_self,
              Option.map_some', Option.getD_some]
            have hcong : ∀ b' ∈ s1.used,
                ((lookupA (updateA s1.data b2 d) b').map List.length).getD 0 =
                  ((lookupA s1.data b').map List.length).getD 0 := by
              intro b' hmem
              rw [lookupA_updateA_ne _ _ _ _ (fun hc : b' = b2 => hnotin (hc ▸ hmem))]
            rw [sum_map_congr hcong]
            unfold sumUsed dataLen
            omega
          · dsimp only
            rw [hbytes, hmax]
            cases hmb : s1.maxBytes with
            | none => simp
            | some m =>
              unfold bytesNeeded at hneed
              rw [hmb] at hneed
              dsimp only at hneed
              simp only [Option.getD_some]
              by_cases hle : s1.usedBytes + d.length ≤ m
              · omega
              · rw [if_neg hle] at hneed
                omega
          · dsimp only
            rw [hused]
            intro b' hb'
            rcases hcase with ⟨_, hbv, _, hnx⟩ | ⟨hbf, _, hnx⟩
            · rw [hnx]
              rcases List.mem_cons.mp hb' with rfl | hmem
              · omega
              · have := mul b' hmem
                omega
            · rw [hnx]
              rcases List.mem_cons.mp hb' with rfl | hmem
              · exact mfl b' hbf
              · exact mul b' hmem
          · dsimp only
            intro b' hb'
            have hb1 := hfree2 b' hb'
            rcases hcase with ⟨_, _, _, hnx⟩ | ⟨_, _, hnx⟩
            · rw [hnx]
              have := mfl b' hb1
              omega
            · rw [hnx]
              exact mfl b' hb1

theorem SInv_runSOp {op : SOp} {s s' : Store} (hi : StoreInvP s)
    (hr : runSOp op s = some s') : StoreInvP s' := by
  cases op with
  | putB pk d =>
    unfold runSOp at hr
    dsimp only at hr
    cases hp : storePut trivialHdl pk d (s, ()) with
    | mk r rest =>
      obtain ⟨⟨s1, u⟩, log⟩ := rest
      cases r with
      | error e =>
        rw [hp] at hr
        simp at hr
      | ok b =>
        rw [hp] at hr
        simp only [Option.some.injEq] at hr
        subst hr
        exact SInv_storePut hi hp
  | getB b =>
    unfold runSOp at hr
    dsimp only at hr
    cases hp : storeGet s b with
    | mk r s1 =>
      cases r with
      | error e =>
        rw [hp] at hr
        simp at hr
      | ok d =>
        rw [hp] at hr
        simp only [Option.some.injEq] at hr
        subst hr
        exact SInv_storeGet hi hp
  | freeB b =>
    unfold runSOp at hr
    dsimp only at hr
    cases hp : freeBucket s b with
    | mk r s1 =>
      cases r with
      | error e =>
        rw [hp] at hr
        simp at hr
      | ok n =>
        rw [hp] at hr
        simp only [Option.some.injEq] at hr
        subst hr
        exact SInv_freeBucket hi hp
  | delB =>
    unfold runSOp at hr
    dsimp only at hr
    cases hp : deleteSomething s with
    | mk r s1 =>
      cases r with
      | error e =>
        rw [hp] at hr
        simp at hr
      | ok kn =>
        obtain ⟨k, n⟩ := kn
        rw [hp] at hr
        simp only [Option.some.injEq] at hr
        subst hr
        exact SInv_deleteSomething hi hp

theorem SInv_runS {ops : List SOp} {s s' : Store} (hi : StoreInvP s)
    (hr : runS ops s = some s') : StoreInvP s' := by
  induction ops generalizing s with
  | nil =>
    simp only [runS, Option.some.injEq] at hr
    exact hr ▸ hi
  | cons op t ih =>
    simp only [runS] at hr
    cases ho : runSOp op s with
    | none =>
      rw [ho] at hr
      simp at hr
    | some s1 =>
      rw [ho] at hr
      exact ih (SInv_runSOp hi ho) hr

/-- Claim C2: starting from a consistent store, after every successful
operation of any sequence of put, get, free_bucket and delete_something,
used_bytes equals the sum of the data lengths over the used list, and stays
within max_bytes when one is set.  Every intermediate state of a successful
run is itself the result of a prefix, so quantifying over sequences covers
each step. -/
theorem C2_accounting_invariant (ops : List SOp) (s0 s' : Store)
    (hi : StoreInvP s0) (hr : runS ops s0 = some s') :
    s'.usedBytes = sumUsed s' ∧ ∀ m, s'.maxBytes = some m → s'.usedBytes ≤ m := by
  have hinv : StoreInvP s' := SInv_runS hi hr
  exact ⟨hinv.2.2.2.2.2.2.1, hinv.le_max⟩

/-- Witness for C2: two puts (the second forces no eviction), a get and a
delete on the empty store. -/
theorem C2_witness :
    StoreInvP exStoreEmpty ∧
    ((runS exOps exStoreEmpty).getD exStoreEmpty).usedBytes =
      sumUsed ((runS exOps exStoreEmpty).getD exStoreEmpty) ∧
    ∀ m, ((runS exOps exStoreEmpty).getD exStoreEmpty).maxBytes = some m →
      ((runS exOps exStoreEmpty).getD exStoreEmpty).usedBytes ≤ m :=
  ⟨by decide,
   C2_accounting_invariant exOps exStoreEmpty _ (by decide) rfl⟩

/-! ## Lemmas towards claim C3 -/

theorem lookupA_eraseA_none {α β : Type} [DecidableEq α] {l : List (α × β)}
    {a : α} (a' : α) (h : lookupA l a = none) :
    lookupA (eraseA l a') a = none := by
  by_cases he : a = a'
  · subst he
    exact lookupA_eraseA_self l a
  · rw [lookupA_eraseA_ne _ _ _ he]
    exact h

theorem unmapBlock_ok_blocks {m : MapState} {k : Key} {m2 : MapState}
    (h : unmapBlock m k = .ok m2) : m2.blocks = eraseA m.blocks k := by
  unfold unmapBlock at h
  cases hl : lookupA m.blocks k with
  | none => rw [hl] at h; simp at h
  | some b =>
    rw [hl] at h
    by_cases hd : k.1 ∈ m.dirs
    · rw [if_pos hd] at h
      cases h
      rfl
    · rw [if_neg hd] at h
      simp at h

theorem unmapHdl_ok {k : Key} {m m2 : MapState} {u : Unit}
    (h : unmapHdl k m = (.ok u, m2)) : unmapBlock m k = .ok m2 := by
  unfold unmapHdl at h
  cases hu : unmapBlock m k with
  | ok m3 =>
    rw [hu] at h
    simp only [Prod.mk.injEq] at h
    rw [h.2]
  | error e =>
    rw [hu] at h
    simp at h

theorem evictLoop_blocks_none {len fuel : Nat} {s s' : Store}
    {m m' : MapState} {log : List Nat} {k : Key}
    (he : evictLoop unmapHdl len fuel (s, m) = (.ok (), (s', m'), log))
    (h0 : lookupA m.blocks k = none) : lookupA m'.blocks k = none := by
  induction fuel generalizing s m log with
  | zero => simp [evictLoop] at he
  | succ fl ih =>
    simp only [evictLoop] at he
    by_cases hz : bytesNeeded s len = 0
    · rw [if_pos hz] at he
      simp only [Prod.mk.injEq] at he
      obtain ⟨_, ⟨_, hm⟩, _⟩ := he
      exact hm ▸ h0
    · rw [if_neg hz] at he
      cases hlast : s.used.getLast? with
      | none =>
        rw [hlast] at he
        simp at he
      | some t =>
        rw [hlast] at he
        dsimp only at he
        cases hds : deleteSomething s with
        | mk r s2 =>
          cases r with
          | error e =>
            rw [hds] at he
            simp at he
          | ok kn =>
            obtain ⟨k2, nn⟩ := kn
            rw [hds] at he
            dsimp only at he
            cases hh : unmapHdl k2 m with
            | mk r2 m2 =>
              cases r2 with
              | error e =>
                rw [hh] at he
                simp at he
              | ok u =>
                rw [hh] at he
                dsimp only at he
                cases hrec : evictLoop unmapHdl len fl (s2, m2) with
                | mk r3 rest =>
                  obtain ⟨⟨s3, m3⟩, log3⟩ := rest
                  rw [hrec] at he
                  dsimp only at he
                  simp only [Prod.mk.injEq] at he
                  obtain ⟨hr3, ⟨hs3, hm3⟩, _⟩ := he
                  have hblocks := unmapBlock_ok_blocks (unmapHdl_ok hh)
                  have h1 : lookupA m2.blocks k = none := by
                    rw [hblocks]
                    exact lookupA_eraseA_none _ h0
                  exact ih (s := s2) (m := m2)
                    (by rw [hrec, hr3, hs3, hm3]) h1

theorem frame_deleteSomething_ne {s s2 : Store} {b t : Nat} {k k2 : Key}
    {n : Nat} {d : List Nat}
    (hinv : StoreInvP s) (hb : b ∈ s.used) (hd : lookupA s.data b = some d)
    (hk : lookupA s.parent b = some k)
    (ht : s.used.getLast? = some t) (hne : t ≠ b)
    (hds : deleteSomething s = (.ok (k2, n), s2)) :
    StoreInvP s2 ∧ b ∈ s2.used ∧ lookupA s2.data b = some d ∧
      lookupA s2.parent b = some k := by
  obtain ⟨t', ht', hk', hfb⟩ := deleteSomething_ok hds
  rw [ht] at ht'
  cases ht'
  obtain ⟨hu, hf, _, hs⟩ := freeBucket_ok hfb
  refine ⟨SInv_freeBucket hinv hfb, ?_, ?_, ?_⟩
  · rw [hs]
    exact (List.mem_erase_of_ne (fun hc => hne hc.symm)).mpr hb
  · rw [hs]
    dsimp only
    rw [lookupA_eraseA_ne _ _ _ (fun hc : b = t => hne hc.symm)]
    exact hd
  · rw [hs]
    dsimp only
    rw [lookupA_eraseA_ne _ _ _ (fun hc : b = t => hne hc.symm)]
    exact hk

theorem evictLoop_c3 {len fuel : Nat} {s s' : Store} {m m' : MapState}
    {log : List Nat} {b : Nat} {k : Key} {d : List Nat}
    (hinv : StoreInvP s) (hb : b ∈ s.used)
    (hd : lookupA s.data b = some d) (hk : lookupA s.parent b = some k)
    (he : evictLoop unmapHdl len fuel (s, m) = (.ok (), (s', m'), log)) :
    (b ∉ log ∧ StoreInvP s' ∧ b ∈ s'.used ∧ lookupA s'.data b = some d ∧
      lookupA s'.parent b = some k) ∨
    (b ∈ log ∧ lookupA m'.blocks k = none) := by
  induction fuel generalizing s m log with
  | zero => simp [evictLoop] at he
  | succ fl ih =>
    simp only [evictLoop] at he
    by_cases hz : bytesNeeded s len = 0
    · rw [if_pos hz] at he
      simp only [Prod.mk.injEq] at he
      obtain ⟨_, ⟨hs, _⟩, hlog⟩ := he
      subst hs
      rw [← hlog]
      exact Or.inl ⟨List.not_mem_nil b, hinv, hb, hd, hk⟩
    · rw [if_neg hz] at he
      cases hlast : s.used.getLast? with
      | none =>
        rw [hlast] at he
        simp at he
      | some t =>
        rw [hlast] at he
        dsimp only at he
        cases hds : deleteSomething s with
        | mk r s2 =>
          cases r with
          | error e =>
            rw [hds] at he
            simp at he
          | ok kn =>
            obtain ⟨k2, nn⟩ := kn
            rw [hds] at he
            dsimp only at he
            cases hh : unmapHdl k2 m with
            | mk r2 m2 =>
              cases r2 with
              | error e =>
                rw [hh] at he
                simp at he
              | ok u =>
                rw [hh] at he
                dsimp only at he
                cases hrec : evictLoop unmapHdl len fl (s2, m2) with
                | mk r3 rest =>
                  obtain ⟨⟨s3, m3⟩, log3⟩ := rest
                  rw [hrec] at he
                  dsimp only at he
                  simp only [Prod.mk.injEq] at he
                  obtain ⟨hr3, ⟨hs3, hm3⟩, hlog⟩ := he
                  have hrec2 : evictLoop unmapHdl len fl (s2, m2) =
                      (.ok (), (s', m'), log3) := by
                    rw [hrec, hr3, hs3, hm3]
                  by_cases hbt : t = b
                  · -- the tail is our bucket: it is evicted and unmapped now
                    subst hbt
                    obtain ⟨t', ht', hk', _⟩ := deleteSomething_ok hds
                    rw [hlast] at ht'
                    cases ht'
                    rw [hk] at hk'
                    cases hk'
                    have hblocks := unmapBlock_ok_blocks (unmapHdl_ok hh)
                    have h1 : lookupA m2.blocks k = none := by
                      rw [hblocks]
                      exact lookupA_eraseA_self _ _
                    have h2 := evictLoop_blocks_none hrec2 h1
                    refine Or.inr ⟨?_, h2⟩
                    rw [← hlog]
                    exact List.mem_cons_self _ _
                  · have hfr := frame_deleteSomething_ne hinv hb hd hk hlast
                      hbt hds
                    obtain ⟨hinv2, hb2, hd2, hk2⟩ := hfr
                    rcases ih hinv2 hb2 hd2 hk2 hrec2 with
                      ⟨hnl, hrest⟩ | ⟨hl, hnone⟩
                    · refine Or.inl ⟨?_, hrest⟩
                      rw [← hlog]
                      intro hc
                      rcases List.mem_cons.mp hc with hc1 | hc2
                      · exact hbt hc1.symm
                      · exact hnl hc2
                    · refine Or.inr ⟨?_, hnone⟩
                      rw [← hlog]
                      exact List.mem_cons_of_mem _ hl

theorem enginePut_ok_parts {cs : CacheState} {p i : Nat} {d : List Nat}
    {b : Nat} {cs1 : CacheState} {log : List Nat}
    (hp : enginePut cs p i d = (.ok b, cs1, log)) :
    ∃ s1 m1 s2,
      evictLoop unmapHdl d.length (cs.store.used.length + 1)
        (cs.store, cs.map) = (.ok (), (s1, m1), log) ∧
      getBucket s1 = (.ok b, s2) ∧ p ∈ m1.dirs ∧
      cs1.store = { s2 with parent := updateA s2.parent b (p, i),
                            data := updateA s2.data b d,
                            usedBytes := s2.usedBytes + d.length } ∧
      cs1.map = { m1 with blocks := updateA m1.blocks (p, i) b } ∧
      storePut unmapHdl (p, i) d (cs.store, cs.map) =
        (.ok b, (cs1.store, m1), log) := by
  unfold enginePut storePut at hp
  cases he : evictLoop unmapHdl d.length (cs.store.used.length + 1)
      (cs.store, cs.map) with
  | mk r rest =>
    obtain ⟨⟨s1, m1⟩, log1⟩ := rest
    cases r with
    | error e =>
      rw [he] at hp
      simp at hp
    | ok u =>
      rw [he] at hp
      dsimp only at hp
      cases hg : getBucket s1 with
      | mk r2 s2 =>
        cases r2 with
        | error e =>
          rw [hg] at hp
          simp at hp
        | ok b2 =>
          rw [hg] at hp
          dsimp only at hp
          unfold putBlock at hp
          by_cases hdir : p ∈ m1.dirs
          · rw [if_pos hdir] at hp
            dsimp only at hp
            simp only [Prod.mk.injEq, Except.ok.injEq] at hp
            obtain ⟨hb2, hcs, hlog⟩ := hp
            subst hb2
            refine ⟨s1, m1, s2, ?_, hg, hdir, ?_, ?_, ?_⟩
            · cases u
              rw [hlog]
            · rw [← hcs]
            · rw [← hcs]
            · unfold storePut
              rw [he]
              dsimp only
              rw [hg]
              dsimp only
              rw [← hcs, hlog]
          · rw [if_neg hdir] at hp
            dsimp only at hp
            simp at hp

theorem enginePut_frame {cs : CacheState} {p i : Nat} {d : List Nat}
    {b : Nat} {cs1 : CacheState} {log : List Nat}
    (hinv : StoreInvP cs.store)
    (hp : enginePut cs p i d = (.ok b, cs1, log)) :
    C3Frame cs1 b (p, i) d := by
  obtain ⟨s1, m1, s2, he, hg, hdir, hst, hmp, hsp⟩ := enginePut_ok_parts hp
  obtain ⟨hused, hdata, hparent, _, _, hnotin, _⟩ := getBucket_ok hg
  refine ⟨SInv_storePut hinv hsp, ?_, ?_, ?_⟩
  · rw [hst]
    dsimp only
    rw [hused]
    exact List.mem_cons_self _ _
  · rw [hst]
    dsimp only
    exact lookupA_updateA_self _ _ _
  · rw [hst]
    dsimp only
    exact lookupA_updateA_self _ _ _

theorem c3_step {op : EOp} {cs cs2 : CacheState} {log : List Nat}
    {b : Nat} {k : Key} {d : List Nat}
    (hf : C3Frame cs b k d) (hr : runEOp op cs = some (cs2, log))
    (hop : ∀ d', op ≠ .putE k.1 k.2 d') :
    (b ∉ log ∧ C3Frame cs2 b k d) ∨
    (b ∈ log ∧ lookupA cs2.map.blocks k = none) := by
  obtain ⟨hinv, hb, hd, hk⟩ := hf
  cases op with
  | putE p' i' d' =>
    have hkey : (p', i') ≠ k := by
      intro hc
      exact hop d' (by rw [← hc])
    unfold runEOp at hr
    dsimp only at hr
    cases hp : enginePut cs p' i' d' with
    | mk r rest =>
      obtain ⟨cs3, log3⟩ := rest
      cases r with
      | error e =>
        rw [hp] at hr
        simp at hr
      | ok b2 =>
        rw [hp] at hr
        dsimp only at hr
        simp only [Option.some.injEq, Prod.mk.injEq] at hr
        obtain ⟨hcs, hlog⟩ := hr
        subst hcs
        subst hlog
        obtain ⟨s1, m1, s2, he, hg, hdir, hst, hmp, hsp⟩ :=
          enginePut_ok_parts hp
        obtain ⟨hused, hdata, hparent, _, _, hnotin, _⟩ := getBucket_ok hg
        rcases evictLoop_c3 hinv hb hd hk he with
          ⟨hnl, hinv1, hb1, hd1, hk1⟩ | ⟨hl, hnone⟩
        · left
          have hbne : b ≠ b2 := fun hc => hnotin (hc ▸ hb1)
          refine ⟨hnl, SInv_storePut hinv hsp, ?_, ?_, ?_⟩
          · rw [hst]
            dsimp only
            rw [hused]
            exact List.mem_cons_of_mem _ hb1
          · rw [hst]
            dsimp only
            rw [lookupA_updateA_ne _ _ _ _ hbne, hdata]
            exact hd1
          · rw [hst]
            dsimp only
            rw [lookupA_updateA_ne _ _ _ _ hbne, hparent]
            exact hk1
        · right
          refine ⟨hl, ?_⟩
          rw [hmp]
          dsimp only
          rw [lookupA_updateA_ne _ _ _ _ (fun hc : k = (p', i') => hkey hc.symm)]
          exact hnone
  | getE b' =>
    unfold runEOp at hr
    dsimp only at hr
    cases hp : engineGet cs b' with
    | mk r cs3 =>
      cases r with
      | error e =>
        rw [hp] at hr
        simp at hr
      | ok d2 =>
        rw [hp] at hr
        dsimp only at hr
        simp only [Option.some.injEq, Prod.mk.injEq] at hr
        obtain ⟨hcs, hlog⟩ := hr
        subst hcs
        rw [← hlog]
        unfold engineGet at hp
        cases hsg : storeGet cs.store b' with
        | mk r2 st =>
          rw [hsg] at hp
          dsimp only at hp
          simp only [Prod.mk.injEq] at hp
          obtain ⟨hr2, hcs3⟩ := hp
          have hsg2 : storeGet cs.store b' = (.ok d2, st) := by
            rw [hsg, hr2]
          obtain ⟨hb', hd', hst⟩ := storeGet_ok hsg2
          have hinv2 : StoreInvP st := SInv_storeGet hinv hsg2
          left
          refine ⟨List.not_mem_nil b, ?_, ?_, ?_, ?_⟩
          · rw [← hcs3]
            exact hinv2
          · rw [← hcs3]
            dsimp only
            rw [hst]
            dsimp only
            by_cases hbb : b = b'
            · rw [hbb]
              exact List.mem_cons_self _ _
            · exact List.mem_cons_of_mem _ ((List.mem_erase_of_ne hbb).mpr hb)
          · rw [← hcs3]
            dsimp only
            rw [hst]
            exact hd
          · rw [← hcs3]
            dsimp only
            rw [hst]
            exact hk
  | delE =>
    unfold runEOp engineDelete at hr
    dsimp only at hr
    cases hlast : cs.store.used.getLast? with
    | none =>
      rw [hlast] at hr
      simp at hr
    | some t =>
      rw [hlast] at hr
      dsimp only at hr
      cases hds : deleteSomething cs.store with
      | mk r st =>
        cases r with
        | error e =>
          rw [hds] at hr
          simp at hr
        | ok kn =>
          obtain ⟨k2, nn⟩ := kn
          rw [hds] at hr
          dsimp only at hr
          cases hum : unmapBlock cs.map k2 with
          | error e =>
            rw [hum] at hr
            simp at hr
          | ok mp =>
            rw [hum] at hr
            dsimp only at hr
            simp only [Option.some.injEq, Prod.mk.injEq] at hr
            obtain ⟨hcs, hlog⟩ := hr
            subst hcs
            rw [← hlog]
            by_cases hbt : t = b
            · subst hbt
              obtain ⟨t', ht', hk', _⟩ := deleteSomething_ok hds
              rw [hlast] at ht'
              cases ht'
              rw [hk] at hk'
              cases hk'
              right
              refine ⟨List.mem_singleton_self _, ?_⟩
              dsimp only
              rw [unmapBlock_ok_blocks hum]
              exact lookupA_eraseA_self _ _
            · left
              have hfr := frame_deleteSomething_ne hinv hb hd hk hlast hbt hds
              refine ⟨?_, hfr.1, hfr.2.1, hfr.2.2.1, hfr.2.2.2⟩
              intro hc
              exact hbt (List.mem_singleton.mp hc).symm
  | setMtimeE p' mt =>
    unfold runEOp at hr
    dsimp only at hr
    simp only [Option.some.injEq, Prod.mk.injEq] at hr
    obtain ⟨hcs, hlog⟩ := hr
    subst hcs
    rw [← hlog]
    exact Or.inl ⟨List.not_mem_nil b, hinv, hb, hd, hk⟩

theorem c3_step_gone {op : EOp} {cs cs2 : CacheState} {log : List Nat}
    {k : Key}
    (hg : lookupA cs.map.blocks k = none)
    (hr : runEOp op cs = some (cs2, log))
    (hop : ∀ d', op ≠ .putE k.1 k.2 d') :
    lookupA cs2.map.blocks k = none := by
  cases op with
  | putE p' i' d' =>
    have hkey : (p', i') ≠ k := by
      intro hc
      exact hop d' (by rw [← hc])
    unfold runEOp at hr
    dsimp only at hr
    cases hp : enginePut cs p' i' d' with
    | mk r rest =>
      obtain ⟨cs3, log3⟩ := rest
      cases r with
      | error e =>
        rw [hp] at hr
        simp at hr
      | ok b2 =>
        rw [hp] at hr
        dsimp only at hr
        simp only [Option.some.injEq, Prod.mk.injEq] at hr
        obtain ⟨hcs, _⟩ := hr
        subst hcs
        obtain ⟨s1, m1, s2, he, hg2, hdir, hst, hmp, hsp⟩ :=
          enginePut_ok_parts hp
        have hm1 := evictLoop_blocks_none he hg
        rw [hmp]
        dsimp only
        rw [lookupA_updateA_ne _ _ _ _ (fun hc : k = (p', i') => hkey hc.symm)]
        exact hm1
  | getE b' =>
    unfold runEOp at hr
    dsimp only at hr
    cases hp : engineGet cs b' with
    | mk r cs3 =>
      cases r with
      | error e =>
        rw [hp] at hr
        simp at hr
      | ok d2 =>
        rw [hp] at hr
        dsimp only at hr
        simp only [Option.some.injEq, Prod.mk.injEq] at hr
        obtain ⟨hcs, _⟩ := hr
        subst hcs
        unfold engineGet at hp
        cases hsg : storeGet cs.store b' with
        | mk r2 st =>
          rw [hsg] at hp
          dsimp only at hp
          simp only [Prod.mk.injEq] at hp
          rw [← hp.2]
          exact hg
  | delE =>
    unfold runEOp engineDelete at hr
    dsimp only at hr
    cases hlast : cs.store.used.getLast? with
    | none =>
      rw [hlast] at hr
      simp at hr
    | some t =>
      rw [hlast] at hr
      dsimp only at hr
      cases hds : deleteSomething cs.store with
      | mk r st =>
        cases r with
        | error e =>
          rw [hds] at hr
          simp at hr
        | ok kn =>
          obtain ⟨k2, nn⟩ := kn
          rw [hds] at hr
          dsimp only at hr
          cases hum : unmapBlock cs.map k2 with
          | error e =>
            rw [hum] at hr
            simp at hr
          | ok mp =>
            rw [hum] at hr
            dsimp only at hr
            simp only [Option.some.injEq, Prod.mk.injEq] at hr
            obtain ⟨hcs, _⟩ := hr
            subst hcs
            dsimp only
            rw [unmapBlock_ok_blocks hum]
            exact lookupA_eraseA_none _ hg
  | setMtimeE p' mt =>
    unfold runEOp at hr
    dsimp only at hr
    simp only [Option.some.injEq, Prod.mk.injEq] at hr
    obtain ⟨hcs, _⟩ := hr
    subst hcs
    exact hg

theorem c3_run_gone {ws : List EOp} {cs cs2 : CacheState} {freed : List Nat}
    {k : Key}
    (hg : lookupA cs.map.blocks k = none)
    (hr : runE ws cs = some (cs2, freed))
    (hws : ∀ d', EOp.putE k.1 k.2 d' ∉ ws) :
    lookupA cs2.map.blocks k = none := by
  induction ws generalizing cs freed with
  | nil =>
    simp only [runE, Option.some.injEq, Prod.mk.injEq] at hr
    rw [← hr.1]
    exact hg
  | cons op t ih =>
    simp only [runE] at hr
    cases ho : runEOp op cs with
    | none =>
      rw [ho] at hr
      simp at hr
    | some pair =>
      obtain ⟨cs3, log1⟩ := pair
      rw [ho] at hr
      dsimp only at hr
      cases hrt : runE t cs3 with
      | none =>
        rw [hrt] at hr
        simp at hr
      | some pair2 =>
        obtain ⟨cs4, log2⟩ := pair2
        rw [hrt] at hr
        dsimp only at hr
        simp only [Option.some.injEq, Prod.mk.injEq] at hr
        obtain ⟨hcs, _⟩ := hr
        subst hcs
        have hop : ∀ d', op ≠ .putE k.1 k.2 d' := fun d' hc =>
          hws d' (hc ▸ List.mem_cons_self op t)
        have hws2 : ∀ d', EOp.putE k.1 k.2 d' ∉ t := fun d' hc =>
          hws d' (List.mem_cons_of_mem _ hc)
        exact ih (c3_step_gone hg ho hop) hrt hws2

theorem c3_run {ws : List EOp} {cs cs2 : CacheState} {freed : List Nat}
    {b : Nat} {k : Key} {d : List Nat}
    (hf : C3Frame cs b k d) (hr : runE ws cs = some (cs2, freed))
    (hws : ∀ d', EOp.putE k.1 k.2 d' ∉ ws) :
    (b ∉ freed ∧ C3Frame cs2 b k d) ∨
    (b ∈ freed ∧ lookupA cs2.map.blocks k = none) := by
  induction ws generalizing cs freed with
  | nil =>
    simp only [runE, Option.some.injEq, Prod.mk.injEq] at hr
    obtain ⟨hcs, hfr⟩ := hr
    rw [← hcs, ← hfr]
    exact Or.inl ⟨List.not_mem_nil b, hf⟩
  | cons op t ih =>
    simp only [runE] at hr
    cases ho : runEOp op cs with
    | none =>
      rw [ho] at hr
      simp at hr
    | some pair =>
      obtain ⟨cs3, log1⟩ := pair
      rw [ho] at hr
      dsimp only at hr
      cases hrt : runE t cs3 with
      | none =>
        rw [hrt] at hr
        simp at hr
      | some pair2 =>
        obtain ⟨cs4, log2⟩ := pair2
        rw [hrt] at hr
        dsimp only at hr
        simp only [Option.some.injEq, Prod.mk.injEq] at hr
        obtain ⟨hcs, hfr⟩ := hr
        subst hcs
        rw [← hfr]
        have hop : ∀ d', op ≠ .putE k.1 k.2 d' := fun d' hc =>
          hws d' (hc ▸ List.mem_cons_self op t)
        have hws2 : ∀ d', EOp.putE k.1 k.2 d' ∉ t := fun d' hc =>
          hws d' (List.mem_cons_of_mem _ hc)
        rcases c3_step hf ho hop with ⟨hnl, hf3⟩ | ⟨hl, hnone⟩
        · rcases ih hf3 hrt hws2 with ⟨hnl2, hf4⟩ | ⟨hl2, hnone2⟩
          · refine Or.inl ⟨?_, hf4⟩
            intro hc
            rcases List.mem_append.mp hc with hc1 | hc2
            · exact hnl hc1
            · exact hnl2 hc2
          · exact Or.inr ⟨List.mem_append_right _ hl2, hnone2⟩
        · exact Or.inr ⟨List.mem_append_left _ hl,
            c3_run_gone hnone hrt hws2⟩

/-- Claim C3: a put of bytes d for block (p, i) followed by a get of the
returned bucket yields d again, across any intervening engine operations
that do not evict that bucket; when an intervening eviction did free it (the
store's eviction callback then unmapped the block), the map's get_block for
(p, i) answers None, provided nothing re-filled that block meanwhile. -/
theorem C3_put_get_roundtrip
    (cs : CacheState) (p i : Nat) (d : List Nat) (b : Nat) (cs1 : CacheState)
    (log0 : List Nat) (ws : List EOp) (cs2 : CacheState) (freed : List Nat)
    (hinv : StoreInvP cs.store)
    (hput : enginePut cs p i d = (.ok b, cs1, log0))
    (hrun : runE ws cs1 = some (cs2, freed))
    (hws : ∀ d', EOp.putE p i d' ∉ ws) :
    (b ∉ freed → (engineGet cs2 b).1 = .ok d) ∧
    (b ∈ freed → mapGetBlock cs2.map p i = none) := by
  have hf := enginePut_frame hinv hput
  have h := c3_run hf hrun hws
  constructor
  · intro hnf
    rcases h with ⟨_, _, hb2, hd2, _⟩ | ⟨hin, _⟩
    · unfold engineGet
      rw [storeGet_spec hb2 hd2]
    · exact absurd hin hnf
  · intro hin
    rcases h with ⟨hnf, _⟩ | ⟨_, hnone⟩
    · exact absurd hin hnf
    · exact hnone

/-- Witness for C3: fill block (0, 0) of the prepared map directory with one
byte, then run a get and a witness refresh; the bucket was not evicted, so
the get returns the byte, and the eviction branch is vacuous. -/
theorem C3_witness :
    StoreInvP exCacheDirOnly.store ∧
    (0 ∉ exC3run.2 → (engineGet exC3run.1 0).1 = .ok [65]) ∧
    (0 ∈ exC3run.2 → mapGetBlock exC3run.1.map 0 0 = none) := by
  refine ⟨by decide, ?_⟩
  exact C3_put_get_roundtrip exCacheDirOnly 0 0 [65] 0 exC3cs1
    (enginePut exCacheDirOnly 0 0 [65]).2.2 [EOp.getE 0, EOp.setMtimeE 0 2]
    exC3run.1 exC3run.2 (by decide) rfl rfl
    (by
      intro d' hc
      simp at hc)

/-! ## Lemmas towards claim C8 -/

theorem freeBlocksList_mono {bs : List Nat} {st st' : Store}
    (h : freeBlocksList bs st = (.ok (), st')) :
    (∀ b, b ∈ st.free → b ∈ st'.free) ∧
    (∀ b, lookupA st.data b = none → lookupA st'.data b = none) := by
  induction bs generalizing st with
  | nil =>
    simp only [freeBlocksList, Prod.mk.injEq] at h
    rw [← h.2]
    exact ⟨fun b hb => hb, fun b hb => hb⟩
  | cons c t ih =>
    simp only [freeBlocksList] at h
    cases hfb : freeBucket st c with
    | mk r st2 =>
      cases r with
      | error e =>
        rw [hfb] at h
        simp at h
      | ok n =>
        rw [hfb] at h
        obtain ⟨_, _, _, hs⟩ := freeBucket_ok hfb
        obtain ⟨ih1, ih2⟩ := ih h
        constructor
        · intro b hb
          refine ih1 b ?_
          rw [hs]
          exact List.mem_append_left _ hb
        · intro b hb
          refine ih2 b ?_
          rw [hs]
          dsimp only
          exact lookupA_eraseA_none _ hb

theorem freeBlocksList_ok {bs : List Nat} {st st' : Store}
    (hinv : StoreInvP st) (hnd : bs.Nodup) (hmem : ∀ b ∈ bs, b ∈ st.used)
    (h : freeBlocksList bs st = (.ok (), st')) :
    StoreInvP st' ∧
    ∀ b ∈ bs, b ∈ st'.free ∧ lookupA st'.data b = none := by
  induction bs generalizing st with
  | nil =>
    simp only [freeBlocksList, Prod.mk.injEq] at h
    rw [← h.2]
    exact ⟨hinv, by simp⟩
  | cons c t ih =>
    simp only [freeBlocksList] at h
    cases hfb : freeBucket st c with
    | mk r st2 =>
      cases r with
      | error e =>
        rw [hfb] at h
        simp at h
      | ok n =>
        rw [hfb] at h
        obtain ⟨hcu, hcf, _, hs⟩ := freeBucket_ok hfb
        have hinv2 : StoreInvP st2 := SInv_freeBucket hinv hfb
        have hnodup := hinv.1
        have hmem2 : ∀ b ∈ t, b ∈ st2.used := by
          intro b hb
          have hne : b ≠ c := fun hc => (List.nodup_cons.mp hnd).1 (hc ▸ hb)
          rw [hs]
          exact (List.mem_erase_of_ne hne).mpr
            (hmem b (List.mem_cons_of_mem _ hb))
        obtain ⟨hinv', hrest⟩ := ih hinv2 (List.nodup_cons.mp hnd).2 hmem2 h
        refine ⟨hinv', ?_⟩
        intro b hb
        rcases List.mem_cons.mp hb with rfl | hbt
        · obtain ⟨hmono1, hmono2⟩ := freeBlocksList_mono h
          constructor
          · refine hmono1 b ?_
            rw [hs]
            exact List.mem_append_right _ (List.mem_singleton_self b)
          · refine hmono2 b ?_
            rw [hs]
            dsimp only
            exact lookupA_eraseA_self _ _
        · exact hrest b hbt

theorem lookupA_filter_fst_ne {β : Type} (l : List (Key × β)) (p i : Nat) :
    lookupA (l.filter (fun e => decide (e.1.1 ≠ p))) (p, i) = none := by
  induction l with
  | nil => rfl
  | cons e t ih =>
    rw [List.filter_cons]
    by_cases he : e.1.1 ≠ p
    · rw [if_pos (by simpa using he)]
      have : e.1 ≠ (p, i) := by
        intro hc
        exact he (by rw [hc])
      simpa [lookupA, this] using ih
    · rw [if_neg (by simpa using he)]
      exact ih

theorem engineInvalidate_absent {cs : CacheState} {p : Nat}
    (h : p ∉ cs.map.dirs) :
    engineInvalidatePath cs p = (.error .enoent, cs) := by
  unfold engineInvalidatePath
  rw [if_neg h]
  dsimp only
  rw [if_neg h]

theorem engineInvalidate_ok_parts {cs : CacheState} {p : Nat}
    {cs' : CacheState}
    (h : engineInvalidatePath cs p = (.ok (), cs')) :
    p ∈ cs.map.dirs ∧
    freeBlocksList (blocksUnder cs.map p) cs.store = (.ok (), cs'.store) ∧
    cs'.map.blocks = cs.map.blocks.filter (fun e => decide (e.1.1 ≠ p)) ∧
    cs'.map.mtimes = eraseA cs.map.mtimes p ∧
    cs'.map.dirs = cs.map.dirs.erase p := by
  unfold engineInvalidatePath at h
  by_cases hdir : p ∈ cs.map.dirs
  · rw [if_pos hdir] at h
    cases hfl : freeBlocksList (blocksUnder cs.map p) cs.store with
    | mk r st =>
      cases r with
      | error e =>
        rw [hfl] at h
        simp at h
      | ok u =>
        rw [hfl] at h
        dsimp only at h
        rw [if_pos hdir] at h
        simp only [Prod.mk.injEq] at h
        obtain ⟨_, hcs⟩ := h
        rw [← hcs]
        cases u
        exact ⟨hdir, rfl, rfl, rfl, rfl⟩
  · rw [if_neg hdir] at h
    dsimp only at h
    rw [if_neg hdir] at h
    simp at h

/-- Claim C8 (amended): after a successful invalidate_path(p), no map entry
under p remains, the witness for p is gone, the per-path map directory is
gone, and every bucket formerly referenced by a map entry under p has been
freed; a second call changes nothing, but returns ENOENT (the code calls
fs::remove_dir_all on the now-absent map directory) instead of succeeding. -/
theorem C8_invalidate_path_effects
    (cs cs' : CacheState) (p : Nat)
    (hinv : StoreInvP cs.store)
    (hdirnd : cs.map.dirs.Nodup)
    (hbu : ∀ e ∈ cs.map.blocks, e.1.1 = p → e.2 ∈ cs.store.used)
    (hnd : (blocksUnder cs.map p).Nodup)
    (hc : engineInvalidatePath cs p = (.ok (), cs')) :
    (∀ i, mapGetBlock cs'.map p i = none) ∧
    lookupA cs'.map.mtimes p = none ∧
    p ∉ cs'.map.dirs ∧
    (∀ b ∈ blocksUnder cs.map p,
      b ∈ cs'.store.free ∧ lookupA cs'.store.data b = none) ∧
    engineInvalidatePath cs' p = (.error .enoent, cs') := by
  obtain ⟨hdir, hfl, hblocks, hmtimes, hdirs⟩ := engineInvalidate_ok_parts hc
  have hmem : ∀ b ∈ blocksUnder cs.map p, b ∈ cs.store.used := by
    intro b hb
    unfold blocksUnder at hb
    obtain ⟨e, he, hbe⟩ := List.mem_map.mp hb
    have he2 := List.mem_of_mem_filter he
    have hp2 : e.1.1 = p := of_decide_eq_true (List.mem_filter.mp he).2
    exact hbe ▸ hbu e he2 hp2
  obtain ⟨hinv', hfree⟩ := freeBlocksList_ok hinv hnd hmem hfl
  have hpnot : p ∉ cs'.map.dirs := by
    rw [hdirs]
    intro hcon
    exact ((List.Nodup.mem_erase_iff hdirnd).mp hcon).1 rfl
  refine ⟨?_, ?_, hpnot, hfree, engineInvalidate_absent hpnot⟩
  · intro i
    unfold mapGetBlock
    rw [hblocks]
    exact lookupA_filter_fst_ne _ _ _
  · rw [hmtimes]
    exact lookupA_eraseA_self _ _

/-- Counterexample for claim C8 as stated: on a cache holding one block of
path 0, the first invalidate_path succeeds, but the claimed idempotency
fails because the second call returns an error (remove_dir_all of the absent
map directory) rather than succeeding. -/
theorem C8_counterexample :
    (engineInvalidatePath exCache 0).1 = .ok () ∧
    (engineInvalidatePath (engineInvalidatePath exCache 0).2 0).1 =
      .error .enoent :=
  ⟨rfl, rfl⟩

/-- Witness for C8 (amended version) at the same concrete cache. -/
theorem C8_witness :
    (∀ i, mapGetBlock (engineInvalidatePath exCache 0).2.map 0 i = none) ∧
    lookupA (engineInvalidatePath exCache 0).2.map.mtimes 0 = none ∧
    0 ∉ (engineInvalidatePath exCache 0).2.map.dirs ∧
    (∀ b ∈ blocksUnder exCache.map 0,
      b ∈ (engineInvalidatePath exCache 0).2.store.free ∧
      lookupA (engineInvalidatePath exCache 0).2.store.data b = none) ∧
    engineInvalidatePath (engineInvalidatePath exCache 0).2 0 =
      (.error .enoent, (engineInvalidatePath exCache 0).2) :=
  C8_invalidate_path_effects exCache (engineInvalidatePath exCache 0).2 0
    (by decide) (by decide) (by decide) (by decide) rfl

/-- Witness for C4: a concrete get, put and delete on the example stores,
each discharged through the theorem. -/
theorem C4_witness :
    ((storeGet exStoreA 1).2.used.head? = some 1) ∧
    ((storePut trivialHdl (4, 0) [7] (exStoreEmpty, ())).2.1.1.used.head? =
      some 0) ∧
    (∃ b, exStoreA.used.getLast? = some b ∧
      (deleteSomething exStoreA).2.used = exStoreA.used.dropLast ∧
      (deleteSomething exStoreA).2.free.getLast? = some b ∧
      lookupA (deleteSomething exStoreA).2.data b = none) := by
  refine ⟨?_, ?_, ?_⟩
  · exact C4_lru_discipline.1 exStoreA 1 [66, 67] _ rfl
  · exact C4_lru_discipline.2.1 Unit trivialHdl (4, 0) [7] exStoreEmpty () 0
      _ () [] rfl
  · exact C4_lru_discipline.2.2 exStoreA (7, 0) 2 _ (by decide) rfl

/-! ## Claims C5 and C6: the old engine's fetch against the spec -/

/-- C5: the spec requires a fetch starting at or past EOF to return empty
bytes and leave the cache unchanged (S5: no new buckets, no new map
entries).  On the S5 input itself — a 15-byte backing file, block size 10,
reading 10 bytes at offset 30 from an empty cache — the old engine's fetch
does return empty bytes, but first writes the empty block into the cache:
it allocates bucket 0, maps block (0, 3) to it, and leaves the bucket on
the used list, because write_block_to_cache (fscache.rs line 787) runs on
every miss before the short-read bookkeeping, with no emptiness check. -/
theorem C5_read_past_eof_mutates :
    (oldFetch exOldB10 0 30 10 exD15 1).1 = .ok [] ∧
    (oldFetch exOldB10 0 30 10 exD15 1).2.1 ≠ exOldB10 ∧
    lookupA (oldFetch exOldB10 0 30 10 exD15 1).2.1.mapBlocks (0, 3) =
      some 0 ∧
    (oldFetch exOldB10 0 30 10 exD15 1).2.1.used = [0] ∧
    (oldFetch exOldB10 0 30 10 exD15 1).2.1.nextBucket = 1 :=
  ⟨rfl, by decide, rfl, rfl, rfl⟩

/-- C6: the spec's backing-store contract has the caller supply the mtime
and the engine never stat the backing file.  The old fetch has no mtime
parameter: it reads file.metadata().mtime() itself (fscache.rs line 738).
Two fetches from the same cache state with the same path, offset, size and
backing bytes, differing only in the backing file's stat mtime, return the
same bytes but leave different cache states — the recorded witness differs
— refuting the hyperproperty. -/
theorem C6_fetch_reads_backing_mtime :
    (oldFetch exOldEmpty 0 0 2 [65, 66] 1).1 = .ok [65, 66] ∧
    (oldFetch exOldEmpty 0 0 2 [65, 66] 2).1 = .ok [65, 66] ∧
    (oldFetch exOldEmpty 0 0 2 [65, 66] 1).2.1 ≠
      (oldFetch exOldEmpty 0 0 2 [65, 66] 2).2.1 ∧
    lookupA (oldFetch exOldEmpty 0 0 2 [65, 66] 1).2.1.mapMtimes 0 =
      some 1 ∧
    lookupA (oldFetch exOldEmpty 0 0 2 [65, 66] 2).2.1.mapMtimes 0 =
      some 2 :=
  ⟨rfl, rfl, by decide, rfl, rfl⟩

/-- C1 counterexample: with size = 0 the claimed slice is empty, but
last_block = (offset + size - 1) / B underflows in u64 (fscache.rs line
749), so fetching 0 bytes at offset 0 from a 2-byte backing file returns
the whole first block instead of nothing. -/
theorem C1_counterexample :
    (oldFetch exOldEmpty 0 0 0 [65, 66] 1).1 = .ok [65, 66] ∧
    ([65, 66] : List Nat) ≠ (([65, 66] : List Nat).drop 0).take 0 :=
  ⟨rfl, by decide⟩

/-! ## Claim C7: short reads stop the old fetch's block iteration -/

/-- Every entry of a fetch's backing-read log except possibly the last
records a full block-size read: a short read always ends the iteration.
Proved by induction over the loop, tracking that the log so far is all
full reads; the one subtle case is a zero block_end `continue` after a
short read, which can only happen on the last block of the range, where
the loop ends anyway. -/
theorem oldFetchGo_log (p offset size first last B : Nat) (D : List Nat)
    (m : Int) (hB : 0 < B) :
    ∀ (fuel block : Nat) (acc : List Nat) (s : OldState)
      (log : List (Nat × Nat)),
      block + fuel ≤ last + 1 →
      (∀ e ∈ log, e.2 = B) →
      ∀ (res : Except Fatal (List Nat)) (s' : OldState)
        (log' : List (Nat × Nat)),
        oldFetchGo p offset size first last B D m fuel block acc s log =
          (res, s', log') →
        ∀ e ∈ log'.dropLast, e.2 = B := by
  intro fuel
  induction fuel with
  | zero =>
    intro block acc s log hsum hall res s' log' heq e he
    simp only [oldFetchGo] at heq
    rw [Prod.mk.injEq, Prod.mk.injEq] at heq
    rw [← heq.2.2] at he
    exact hall e ((List.dropLast_sublist log).subset he)
  | succ fuel ih =>
    intro block acc s log hsum hall res s' log' heq e he
    simp only [oldFetchGo] at heq
    cases hfb : oldFetchBlock s p block B D m log with
    | error f =>
      rw [hfb] at heq
      dsimp only at heq
      rw [Prod.mk.injEq, Prod.mk.injEq] at heq
      rw [← heq.2.2] at he
      exact hall e ((List.dropLast_sublist log).subset he)
    | ok trip =>
      obtain ⟨bd, s1, log1⟩ := trip
      rw [hfb] at heq
      dsimp only at heq
      have hlog1 : log1 = log ∨
          (log1 = log ++ [(block, bd.length)] ∧ bd.length ≤ B) := by
        unfold oldFetchBlock at hfb
        cases hcb : cachedBlock s p block with
        | some dHit =>
          rw [hcb] at hfb
          dsimp only at hfb
          rw [Except.ok.injEq, Prod.mk.injEq, Prod.mk.injEq] at hfb
          exact Or.inl hfb.2.2.symm
        | none =>
          rw [hcb] at hfb
          dsimp only at hfb
          cases hw : writeBlockToCache s p block (oldReadAt D (block * B) B) m with
          | error f => rw [hw] at hfb; exact nomatch hfb
          | ok s1' =>
            rw [hw] at hfb
            dsimp only at hfb
            rw [Except.ok.injEq, Prod.mk.injEq, Prod.mk.injEq] at hfb
            refine Or.inr ⟨?_, ?_⟩
            · rw [← hfb.2.2, hfb.1]
            · rw [← hfb.1]
              simp [oldReadAt, List.length_take]
      have hfin : ∀ e' ∈ log1.dropLast, e'.2 = B := by
        rcases hlog1 with h | ⟨h, _⟩
        · subst h
          exact fun e' he' => hall e' ((List.dropLast_sublist log1).subset he')
        · subst h
          rw [List.dropLast_concat]
          exact hall
      set beRaw := (if block = last
          then ((offset + size) % u64Mod + u64Mod - block * B) % u64Mod
          else B) with hbeRaw
      set bs := (if block = first then offset - block * B else 0) with hbs
      set be := (if bd.length < beRaw then bd.length else beRaw) with hbe
      by_cases h0 : beRaw = 0
      · rw [if_pos h0] at heq
        rcases hlog1 with h | ⟨h, hlen⟩
        · subst h
          exact ih (block + 1) acc s1 log1 (by omega) hall res s' log' heq e he
        · have hbl : block = last := by
            by_contra hne
            rw [hbeRaw, if_neg hne] at h0
            omega
          have hf0 : fuel = 0 := by omega
          subst hf0
          simp only [oldFetchGo] at heq
          rw [Prod.mk.injEq, Prod.mk.injEq] at heq
          rw [← heq.2.2] at he
          rw [h, List.dropLast_concat] at he
          exact hall e he
      · rw [if_neg h0] at heq
        by_cases h1 : be < bs
        · rw [if_pos h1] at heq
          rw [Prod.mk.injEq, Prod.mk.injEq] at heq
          rw [← heq.2.2] at he
          exact hfin e he
        · rw [if_neg h1] at heq
          by_cases h2 : bs ≠ 0 ∨ be ≠ bd.length
          · rw [if_pos h2] at heq
            by_cases h3 : bd.length < B
            · rw [if_pos h3] at heq
              rw [Prod.mk.injEq, Prod.mk.injEq] at heq
              rw [← heq.2.2] at he
              exact hfin e he
            · rw [if_neg h3] at heq
              rcases hlog1 with h | ⟨h, hlen⟩
              · subst h
                exact ih (block + 1) _ s1 log1 (by omega) hall res s' log' heq e he
              · subst h
                refine ih (block + 1) _ s1 _ (by omega) ?_ res s' log' heq e he
                intro e' hmem
                rcases List.mem_append.mp hmem with hm | hm
                · exact hall e' hm
                · have : e' = (block, bd.length) := List.mem_singleton.mp hm
                  rw [this]
                  show bd.length = B
                  omega
          · rw [if_neg h2] at heq
            by_cases h4 : block = first ∧ block = last
            · rw [if_pos h4] at heq
              rw [Prod.mk.injEq, Prod.mk.injEq] at heq
              rw [← heq.2.2] at he
              exact hfin e he
            · rw [if_neg h4] at heq
              by_cases h5 : bd.length < B
              · rw [if_pos h5] at heq
                rw [Prod.mk.injEq, Prod.mk.injEq] at heq
                rw [← heq.2.2] at he
                exact hfin e he
              · rw [if_neg h5] at heq
                rcases hlog1 with h | ⟨h, hlen⟩
                · subst h
                  exact ih (block + 1) _ s1 log1 (by omega) hall res s' log' heq e he
                · subst h
                  refine ih (block + 1) _ s1 _ (by omega) ?_ res s' log' heq e he
                  intro e' hmem
                  rcases List.mem_append.mp hmem with hm | hm
                  · exact hall e' hm
                  · have : e' = (block, bd.length) := List.mem_singleton.mp hm
                    rw [this]
                    show bd.length = B
                    omega

/-- C7: during a single fetch, once a read of some block from the backing
file returns fewer than B bytes, no later block is read: every entry of
the backing-read log except the last records exactly B bytes read
(fscache.rs lines 842-848). -/
theorem C7_short_read_stops (s : OldState) (p offset size : Nat)
    (D : List Nat) (mm : Int) (e : Nat × Nat)
    (he : e ∈ ((oldFetch s p offset size D mm).2.2).dropLast) :
    e.2 = s.blockSize := by
  unfold oldFetch at he
  cases hinv : (if oldCachedMtime s p = some mm then Except.ok s
                else oldInvalidateKeep s p) with
  | error f =>
    rw [hinv] at he
    dsimp only at he
    exact nomatch he
  | ok s1 =>
    rw [hinv] at he
    dsimp only at he
    by_cases hB : s.blockSize = 0
    · rw [if_pos hB] at he
      exact nomatch he
    · rw [if_neg hB] at he
      set B := s.blockSize with hBdef
      set first := offset / B with hfirst
      set last := (((offset + size) % u64Mod + (u64Mod - 1)) % u64Mod) / B
        with hlast
      by_cases hfu : (last + 1) % u64Mod ≤ first
      · rw [Nat.sub_eq_zero_of_le hfu] at he
        simp only [oldFetchGo] at he
        exact nomatch he
      · have hsum : first + ((last + 1) % u64Mod - first) ≤ last + 1 := by
          have := Nat.mod_le (last + 1) u64Mod
          omega
        exact oldFetchGo_log p offset size first last B D mm
          (Nat.pos_of_ne_zero hB)
          ((last + 1) % u64Mod - first) first [] s1 []
          hsum (fun e' he' => nomatch he')
          (oldFetchGo p offset size first last B D mm
            ((last + 1) % u64Mod - first) first [] s1 []).1
          (oldFetchGo p offset size first last B D mm
            ((last + 1) % u64Mod - first) first [] s1 []).2.1
          (oldFetchGo p offset size first last B D mm
            ((last + 1) % u64Mod - first) first [] s1 []).2.2
          rfl e he

/-- Witness for C7: a 5-byte backing file read in 2-byte blocks logs reads
(0, 2), (1, 2), (2, 1); the non-final entry (1, 2) read a full block. -/
theorem C7_witness :
    ((1, 2) : Nat × Nat) ∈
      ((oldFetch exOldB2 0 0 5 [65, 66, 67, 68, 69] 1).2.2).dropLast ∧
    ((1, 2) : Nat × Nat).2 = exOldB2.blockSize :=
  ⟨by decide,
   C7_short_read_stops exOldB2 0 0 5 [65, 66, 67, 68, 69] 1 (1, 2)
     (by decide)⟩

/-! ## Claim C1: old-fetch slice reconstruction -/

/-- On a map-consistent state, cached_block always misses: a mapped bucket
on the used list makes the inverted to_head checks fail, and a mapped
bucket off the list has no data file to read. -/
theorem cachedBlock_none_of_M (s : OldState) (p i : Nat)
    (hM : MapConsistent s p) : cachedBlock s p i = none := by
  unfold cachedBlock
  cases hmb : lookupA s.mapBlocks (p, i) with
  | none => rfl
  | some b =>
    dsimp only
    rcases hM i b hmb with hu | hd
    · cases htoh : oldToHeadOk s b with
      | false => simp [htoh]
      | true =>
        exfalso
        unfold oldToHeadOk at htoh
        simp only [Bool.and_eq_true, Bool.not_eq_true'] at htoh
        have : s.used.contains b = true := by
          simpa using hu
        rw [this] at htoh
        exact absurd htoh.1.2 (by decide)
    · cases htoh : oldToHeadOk s b with
      | false => simp [htoh]
      | true => simp [htoh, hd]

/-- The map trim step leaves the used list unchanged. -/
theorem oldTrimMap_used (s : OldState) (b : Nat) :
    (oldTrimMap s b).used = s.used := by
  unfold oldTrimMap
  cases hpl : lookupA s.parentLink b with
  | none => rfl
  | some k =>
    dsimp only
    split <;> rfl

/-- The map trim step leaves the free list unchanged. -/
theorem oldTrimMap_free (s : OldState) (b : Nat) :
    (oldTrimMap s b).free = s.free := by
  unfold oldTrimMap
  cases hpl : lookupA s.parentLink b with
  | none => rfl
  | some k =>
    dsimp only
    split <;> rfl

/-- The map trim step leaves the bucket data unchanged. -/
theorem oldTrimMap_data (s : OldState) (b : Nat) :
    (oldTrimMap s b).data = s.data := by
  unfold oldTrimMap
  cases hpl : lookupA s.parentLink b with
  | none => rfl
  | some k =>
    dsimp only
    split <;> rfl

/-- The map trim step leaves the parent links unchanged. -/
theorem oldTrimMap_parentLink (s : OldState) (b : Nat) :
    (oldTrimMap s b).parentLink = s.parentLink := by
  unfold oldTrimMap
  cases hpl : lookupA s.parentLink b with
  | none => rfl
  | some k =>
    dsimp only
    split <;> rfl

/-- The map trim step only removes map entries. -/
theorem oldTrimMap_mapBlocks_le (s : OldState) (b : Nat) (k' : Key) (v : Nat)
    (h : lookupA (oldTrimMap s b).mapBlocks k' = some v) :
    lookupA s.mapBlocks k' = some v := by
  unfold oldTrimMap at h
  cases hpl : lookupA s.parentLink b with
  | none => rw [hpl] at h; exact h
  | some k =>
    rw [hpl] at h
    dsimp only at h
    split at h <;> dsimp only at h <;>
      (by_cases hk : k' = k
       · rw [hk, lookupA_eraseA_self] at h; exact absurd h (by simp)
       · rwa [lookupA_eraseA_ne _ _ _ hk] at h)

/-- The used list after free_bucket keeps every other member. -/
theorem oldFreeBucket_used_mem (s : OldState) (b x : Nat) (hx : x ∈ s.used)
    (hxb : x ≠ b) : x ∈ (oldFreeBucket s b).2.used := by
  unfold oldFreeBucket
  by_cases hemp : s.used.isEmpty
  · rw [if_pos hemp]; exact hx
  · rw [if_neg hemp]
    dsimp only
    rw [oldTrimMap_data]
    dsimp only
    cases hd : lookupA s.data b <;>
      (dsimp only; rw [oldTrimMap_used]; dsimp only;
       exact (List.mem_erase_of_ne hxb).mpr hx)

/-- free_bucket only removes map entries. -/
theorem oldFreeBucket_mapBlocks_le (s : OldState) (b : Nat) (k' : Key)
    (v : Nat) (h : lookupA (oldFreeBucket s b).2.mapBlocks k' = some v) :
    lookupA s.mapBlocks k' = some v := by
  unfold oldFreeBucket at h
  by_cases hemp : s.used.isEmpty
  · rw [if_pos hemp] at h; exact h
  · rw [if_neg hemp] at h
    dsimp only at h
    rw [oldTrimMap_data] at h
    dsimp only at h
    cases hd : lookupA s.data b <;>
      (rw [hd] at h; dsimp only at h;
       exact oldTrimMap_mapBlocks_le
         { s with used := s.used.erase b, free := s.free ++ [b] } b k' v h)

/-- free_bucket never creates a data file. -/
theorem oldFreeBucket_data_none (s : OldState) (b x : Nat)
    (h : lookupA s.data x = none) :
    lookupA (oldFreeBucket s b).2.data x = none := by
  unfold oldFreeBucket
  by_cases hemp : s.used.isEmpty
  · rw [if_pos hemp]; exact h
  · rw [if_neg hemp]
    dsimp only
    rw [oldTrimMap_data]
    dsimp only
    cases hd : lookupA s.data b <;> dsimp only
    · exact h
    · exact lookupA_eraseA_none b h

/-- After free_bucket, either nothing changed at all or the freed bucket
has no data file. -/
theorem oldFreeBucket_data_self (s : OldState) (b : Nat) :
    (oldFreeBucket s b).2 = s ∨
    lookupA (oldFreeBucket s b).2.data b = none := by
  unfold oldFreeBucket
  by_cases hemp : s.used.isEmpty
  · rw [if_pos hemp]; exact Or.inl rfl
  · rw [if_neg hemp]
    dsimp only
    rw [oldTrimMap_data]
    dsimp only
    cases hd : lookupA s.data b <;> dsimp only
    · exact Or.inr hd
    · exact Or.inr (lookupA_eraseA_self _ b)

/-- free_bucket preserves map consistency at any path: the freed bucket
leaves the used list but its data file is gone too (or was already
missing), other buckets stay on the list, and the map only loses
entries. -/
theorem Mc_oldFreeBucket (s : OldState) (b p : Nat)
    (hM : MapConsistent s p) : MapConsistent (oldFreeBucket s b).2 p := by
  intro i b' h
  have h0 := oldFreeBucket_mapBlocks_le s b (p, i) b' h
  rcases hM i b' h0 with hu | hdn
  · by_cases hbb : b' = b
    · subst hbb
      rcases oldFreeBucket_data_self s b' with hs | hn
      · rw [hs]
        exact Or.inl hu
      · exact Or.inr hn
    · exact Or.inl (oldFreeBucket_used_mem s b b' hu hbb)
  · exact Or.inr (oldFreeBucket_data_none s b b' hdn)

/-- The invalidation walk preserves map consistency at any path. -/
theorem Mc_oldInvalidateGo (p : Nat) :
    ∀ (ks : List Key) (s s2 : OldState),
      oldInvalidateGo ks s = .ok s2 → MapConsistent s p →
      MapConsistent s2 p := by
  intro ks
  induction ks with
  | nil =>
    intro s s2 h hM
    simp only [oldInvalidateGo] at h
    rw [Except.ok.injEq] at h
    rw [← h]
    exact hM
  | cons k t ih =>
    intro s s2 h hM
    simp only [oldInvalidateGo] at h
    cases hmb : lookupA s.mapBlocks k with
    | none =>
      rw [hmb] at h
      exact ih s s2 h hM
    | some b =>
      rw [hmb] at h
      dsimp only at h
      cases hfb : oldFreeBucket s b with
      | mk r st =>
        rw [hfb] at h
        cases r with
        | ok u =>
          dsimp only at h
          have hM2 := Mc_oldFreeBucket s b p hM
          rw [hfb] at hM2
          exact ih st s2 h hM2
        | error e =>
          dsimp only at h
          exact nomatch h

/-- invalidate_path_keep_directories preserves map consistency at any
path. -/
theorem Mc_oldInvalidateKeep (s s2 : OldState) (p q : Nat)
    (h : oldInvalidateKeep s q = .ok s2) (hM : MapConsistent s p) :
    MapConsistent s2 p := by
  unfold oldInvalidateKeep at h
  by_cases hdir : s.mapDirs.contains q = true
  · rw [if_pos hdir] at h
    cases hgo : oldInvalidateGo
        ((s.mapBlocks.filter (fun e => decide (e.1.1 = q))).map Prod.fst) s with
    | error f => rw [hgo] at h; exact nomatch h
    | ok s3 =>
      rw [hgo] at h
      dsimp only at h
      rw [Except.ok.injEq] at h
      rw [← h]
      exact Mc_oldInvalidateGo p _ s s3 hgo hM
  · rw [if_neg hdir] at h
    rw [Except.ok.injEq] at h
    rw [← h]
    exact hM

/-- The mtime bookkeeping of write_block_to_cache preserves map
consistency. -/
theorem Mc_wbPrep (s0 : OldState) (p : Nat) (m : Int) (ok1 : Bool)
    (s1 : OldState) (h : wbPrep s0 p m = .ok (ok1, s1))
    (hM : MapConsistent s0 p) : MapConsistent s1 p := by
  unfold wbPrep at h
  by_cases hmt : oldCachedMtime s0 p = some m
  · rw [if_pos hmt] at h
    rw [Except.ok.injEq, Prod.mk.injEq] at h
    rw [← h.2]
    exact hM
  · rw [if_neg hmt] at h
    by_cases hsome : (oldCachedMtime s0 p).isSome = true
    · rw [if_pos hsome] at h
      cases hik : oldInvalidateKeep s0 p with
      | error f => rw [hik] at h; exact nomatch h
      | ok sa =>
        rw [hik] at h
        dsimp only at h
        have hMa := Mc_oldInvalidateKeep s0 sa p p hik hM
        unfold oldWriteMtime at h
        by_cases hdir : sa.mapDirs.contains p = true
        · rw [if_pos hdir] at h
          dsimp only at h
          rw [Except.ok.injEq, Prod.mk.injEq] at h
          rw [← h.2]
          exact hMa
        · rw [if_neg hdir] at h
          dsimp only at h
          rw [Except.ok.injEq, Prod.mk.injEq] at h
          rw [← h.2]
          exact hMa
    · rw [if_neg hsome] at h
      dsimp only at h
      unfold oldWriteMtime at h
      dsimp only at h
      have hc : (if s0.mapDirs.contains p = true then s0.mapDirs
                 else p :: s0.mapDirs).contains p = true := by
        by_cases hc0 : s0.mapDirs.contains p = true
        · rw [if_pos hc0]; exact hc0
        · rw [if_neg hc0]; simp
      rw [if_pos hc] at h
      dsimp only at h
      rw [Except.ok.injEq, Prod.mk.injEq] at h
      rw [← h.2]
      exact hM

/-- The eviction loop preserves map consistency. -/
theorem Mc_oldEvictLoop (p : Nat) :
    ∀ (fuel len : Nat) (s : OldState) (ok2 : Bool) (s2 : OldState),
      oldEvictLoop fuel len s = .ok (ok2, s2) → MapConsistent s p →
      MapConsistent s2 p := by
  intro fuel
  induction fuel with
  | zero =>
    intro len s ok2 s2 h hM
    simp only [oldEvictLoop] at h
    exact nomatch h
  | succ fuel ih =>
    intro len s ok2 s2 h hM
    simp only [oldEvictLoop] at h
    by_cases hn : oldBytesNeeded s len = 0
    · rw [if_pos hn] at h
      rw [Except.ok.injEq, Prod.mk.injEq] at h
      rw [← h.2]
      exact hM
    · rw [if_neg hn] at h
      cases hgl : s.used.getLast? with
      | none => rw [hgl] at h; exact nomatch h
      | some t =>
        rw [hgl] at h
        dsimp only at h
        cases hfb : oldFreeBucket s t with
        | mk r st =>
          rw [hfb] at h
          cases r with
          | ok u =>
            dsimp only at h
            have hM2 := Mc_oldFreeBucket s t p hM
            rw [hfb] at hM2
            exact ih len st ok2 s2 h hM2
          | error e =>
            dsimp only at h
            rw [Except.ok.injEq, Prod.mk.injEq] at h
            rw [← h.2]
            have hM2 := Mc_oldFreeBucket s t p hM
            rw [hfb] at hM2
            exact hM2

/-- get_bucket puts the chosen bucket at the used-list head. -/
theorem oldGetBucket_used (s : OldState) :
    (oldGetBucket s).2.used = (oldGetBucket s).1 :: s.used := by
  unfold oldGetBucket
  cases s.free.getLast? <;> rfl

/-- get_bucket preserves map consistency: the used list only grows. -/
theorem Mc_oldGetBucket (s : OldState) (p : Nat) (hM : MapConsistent s p) :
    MapConsistent (oldGetBucket s).2 p := by
  intro i b' h
  have h0 : lookupA s.mapBlocks (p, i) = some b' := by
    unfold oldGetBucket at h
    cases hgl : s.free.getLast? <;> (rw [hgl] at h; exact h)
  rcases hM i b' h0 with hu | hd
  · refine Or.inl ?_
    rw [oldGetBucket_used]
    exact List.mem_cons_of_mem _ hu
  · refine Or.inr ?_
    unfold oldGetBucket
    cases hgl : s.free.getLast? <;> exact hd


/-- write_block_to_cache preserves map consistency at the written path:
any new map entry points at the bucket just placed at the used-list
head. -/
theorem Mc_writeBlockToCache (s : OldState) (p i : Nat) (d : List Nat)
    (m : Int) (s' : OldState) (h : writeBlockToCache s p i d m = .ok s')
    (hM : MapConsistent s p) : MapConsistent s' p := by
  unfold writeBlockToCache at h
  cases hprep : wbPrep s p m with
  | error f => rw [hprep] at h; exact nomatch h
  | ok pr =>
    obtain ⟨ok1, s1⟩ := pr
    rw [hprep] at h
    have hM1 := Mc_wbPrep s p m ok1 s1 hprep hM
    cases ok1 with
    | false =>
      dsimp only at h
      rw [Except.ok.injEq] at h
      rw [← h]
      exact hM1
    | true =>
      dsimp only at h
      cases hev : oldEvictLoop (s1.used.length + 1) d.length s1 with
      | error f => rw [hev] at h; exact nomatch h
      | ok pr2 =>
        obtain ⟨ok2, s2⟩ := pr2
        rw [hev] at h
        have hM2 := Mc_oldEvictLoop p (s1.used.length + 1) d.length s1 ok2
          s2 hev hM1
        cases ok2 with
        | false =>
          dsimp only at h
          rw [Except.ok.injEq] at h
          rw [← h]
          exact hM2
        | true =>
          dsimp only at h
          have hM3 := Mc_oldGetBucket s2 p hM2
          have hbu : (oldGetBucket s2).1 ∈ (oldGetBucket s2).2.used := by
            rw [oldGetBucket_used]
            exact List.mem_cons_self _ _
          have hM4 : MapConsistent { (oldGetBucket s2).2 with
              data := updateA (oldGetBucket s2).2.data (oldGetBucket s2).1
                (d ++ ((lookupA (oldGetBucket s2).2.data
                  (oldGetBucket s2).1).getD []).drop d.length) } p := by
            intro i' b' hmb
            rcases hM3 i' b' hmb with hu | hd
            · exact Or.inl hu
            · by_cases hbb : b' = (oldGetBucket s2).1
              · refine Or.inl ?_
                rw [hbb]
                exact hbu
              · refine Or.inr ?_
                show lookupA (updateA (oldGetBucket s2).2.data
                  (oldGetBucket s2).1 _) b' = none
                rw [lookupA_updateA_ne _ _ _ _ hbb]
                exact hd
          by_cases hdir : (oldGetBucket s2).2.mapDirs.contains p = true
          · rw [if_pos hdir] at h
            rw [Except.ok.injEq] at h
            rw [← h]
            intro i' b' hmb
            by_cases hii : ((p, i') : Key) = (p, i)
            · have hmb2 : lookupA (updateA { (oldGetBucket s2).2 with
                  data := updateA (oldGetBucket s2).2.data (oldGetBucket s2).1
                    (d ++ ((lookupA (oldGetBucket s2).2.data
                      (oldGetBucket s2).1).getD []).drop d.length)
                  }.mapBlocks (p, i) (oldGetBucket s2).1) (p, i') =
                  some b' := hmb
              rw [hii, lookupA_updateA_self] at hmb2
              refine Or.inl ?_
              rw [show b' = (oldGetBucket s2).1 from (Option.some.injEq _ _).mp hmb2.symm]
              exact hbu
            · have hmb2 : lookupA (updateA { (oldGetBucket s2).2 with
                  data := updateA (oldGetBucket s2).2.data (oldGetBucket s2).1
                    (d ++ ((lookupA (oldGetBucket s2).2.data
                      (oldGetBucket s2).1).getD []).drop d.length)
                  }.mapBlocks (p, i) (oldGetBucket s2).1) (p, i') =
                  some b' := hmb
              rw [lookupA_updateA_ne _ _ _ _ hii] at hmb2
              rcases hM4 i' b' hmb2 with hu | hd
              · exact Or.inl hu
              · exact Or.inr hd
          · rw [if_neg hdir] at h
            cases hfb : oldFreeBucket { (oldGetBucket s2).2 with
                data := updateA (oldGetBucket s2).2.data (oldGetBucket s2).1
                  (d ++ ((lookupA (oldGetBucket s2).2.data
                    (oldGetBucket s2).1).getD []).drop d.length) }
                (oldGetBucket s2).1 with
            | mk r st =>
              rw [hfb] at h
              cases r with
              | ok u =>
                dsimp only at h
                rw [Except.ok.injEq] at h
                rw [← h]
                have hM5 := Mc_oldFreeBucket _ (oldGetBucket s2).1 p hM4
                rw [hfb] at hM5
                exact hM5
              | error e =>
                dsimp only at h
                exact nomatch h


/-- Adjacent slices of a list concatenate. -/
theorem take_append_take_drop (l : List Nat) (a x y : Nat) (h1 : a ≤ x)
    (h2 : x ≤ y) :
    (l.drop a).take (x - a) ++ (l.drop x).take (y - x) =
      (l.drop a).take (y - a) := by
  have hy : y - a = (x - a) + (y - x) := by omega
  rw [hy, List.take_add, List.drop_drop]
  have hx : a + (x - a) = x := by omega
  rw [hx]

/-- Length of a positioned read. -/
theorem oldReadAt_length (D : List Nat) (pos len : Nat) :
    (oldReadAt D pos len).length = min len (D.length - pos) := by
  simp [oldReadAt, List.length_take, List.length_drop]

/-- Dropping into a block slice is a further positioned slice. -/
theorem slice_drop (D : List Nat) (pos B bs : Nat) :
    ((D.drop pos).take B).drop bs = (D.drop (pos + bs)).take (B - bs) := by
  rw [List.drop_take, List.drop_drop]

/-- The u64 wrapping subtraction computes exactly when it does not wrap. -/
theorem u64_wrap_sub (X Y : Nat) (hY : Y ≤ X) (hX : X < u64Mod) :
    (X % u64Mod + u64Mod - Y) % u64Mod = X - Y := by
  rw [Nat.mod_eq_of_lt hX]
  have h1 : X + u64Mod - Y = u64Mod + (X - Y) := by omega
  rw [h1, Nat.add_mod_left, Nat.mod_eq_of_lt (by omega)]

/-- The u64 wrapping decrement computes exactly on positive values. -/
theorem u64_wrap_dec (X : Nat) (h1 : 1 ≤ X) (hX : X < u64Mod) :
    (X % u64Mod + (u64Mod - 1)) % u64Mod = X - 1 := by
  have hW : 0 < u64Mod := by norm_num [u64Mod]
  rw [Nat.mod_eq_of_lt hX]
  have h2 : X + (u64Mod - 1) = u64Mod + (X - 1) := by omega
  rw [h2, Nat.add_mod_left, Nat.mod_eq_of_lt (by omega)]


/-- The block loop of the old fetch accumulates exactly the requested
slice of the backing bytes, provided the map is consistent (so every block
misses and is read from the backing file), the requested range is
nonempty, and the u64 arithmetic does not wrap. -/
theorem oldFetchGo_slice (p : Nat) (D : List Nat) (m : Int)
    (B offset size first last : Nat)
    (hB : 0 < B) (hrange : offset + size < u64Mod) (hsize : 0 < size)
    (hfirst : first = offset / B) (hlast : last = (offset + size - 1) / B) :
    ∀ (fuel block : Nat) (acc : List Nat) (s : OldState)
      (log : List (Nat × Nat)),
      block + fuel = last + 1 →
      first ≤ block →
      MapConsistent s p →
      (block ≤ last → acc = (D.drop offset).take (block * B - offset)) →
      (first < block → block ≤ last →
        block * B ≤ D.length ∧ offset ≤ block * B) →
      (block = last + 1 → acc = (D.drop offset).take size) →
      ∀ (res : List Nat) (s' : OldState) (log' : List (Nat × Nat)),
        oldFetchGo p offset size first last B D m fuel block acc s log =
          (.ok res, s', log') →
        res = (D.drop offset).take size := by
  intro fuel
  induction fuel with
  | zero =>
    intro block acc s log hsum hfb hM hacc hprev hfin res s' log' heq
    simp only [oldFetchGo] at heq
    rw [Prod.mk.injEq, Prod.mk.injEq] at heq
    have hb1 : block = last + 1 := by omega
    have hres : acc = res := (Except.ok.injEq _ _).mp heq.1
    rw [← hres]
    exact hfin hb1
  | succ fuel ih =>
    intro block acc s log hsum hfb hM hacc hprev hfin res s' log' heq
    have hble : block ≤ last := by omega
    have hfB : first * B ≤ offset := by
      rw [hfirst]; exact Nat.div_mul_le_self offset B
    have hfB2 : offset < first * B + B := by
      rw [hfirst]
      calc offset < B * (offset / B + 1) := Nat.lt_mul_div_succ offset hB
        _ = offset / B * B + B := by ring
    have hlB : last * B ≤ offset + size - 1 := by
      rw [hlast]; exact Nat.div_mul_le_self _ B
    have hlB2 : offset + size ≤ last * B + B := by
      have h := Nat.lt_mul_div_succ (offset + size - 1) hB
      have h2 : B * ((offset + size - 1) / B + 1) =
          (offset + size - 1) / B * B + B := by ring
      rw [h2] at h
      rw [hlast]
      omega
    have hposle : block * B ≤ last * B := Nat.mul_le_mul_right B hble
    have hstepB : block < last → block * B + B ≤ last * B := by
      intro hlt
      calc block * B + B = (block + 1) * B := by ring
        _ ≤ last * B := Nat.mul_le_mul_right B hlt
    have hcb : cachedBlock s p block = none := cachedBlock_none_of_M s p block hM
    simp only [oldFetchGo] at heq
    unfold oldFetchBlock at heq
    rw [hcb] at heq
    dsimp only at heq
    cases hw : writeBlockToCache s p block (oldReadAt D (block * B) B) m with
    | error f =>
      rw [hw] at heq
      dsimp only at heq
      rw [Prod.mk.injEq, Prod.mk.injEq] at heq
      exact nomatch heq.1
    | ok s1 =>
      rw [hw] at heq
      dsimp only at heq
      have hM1 : MapConsistent s1 p := Mc_writeBlockToCache s p block _ m s1 hw hM
      set bd := oldReadAt D (block * B) B with hbd
      have hlen : bd.length = min B (D.length - block * B) := oldReadAt_length D _ B
      set bs := (if block = first then offset - block * B else 0) with hbs
      set beRaw := (if block = last
          then ((offset + size) % u64Mod + u64Mod - block * B) % u64Mod
          else B) with hbeRaw
      set be := (if bd.length < beRaw then bd.length else beRaw) with hbe
      have hbeval : beRaw = (if block = last then offset + size - block * B else B) := by
        rw [hbeRaw]
        by_cases hbl : block = last
        · rw [if_pos hbl, if_pos hbl]
          have hblB : block * B = last * B := by rw [hbl]
          exact u64_wrap_sub (offset + size) (block * B) (by omega) hrange
        · rw [if_neg hbl, if_neg hbl]
      have hbemin : be = min bd.length beRaw := by
        rw [hbe]
        split <;> omega
      have hbepos : 0 < beRaw := by
        rw [hbeval]
        by_cases hbl : block = last
        · rw [if_pos hbl]
          have hblB : block * B = last * B := by rw [hbl]
          omega
        · rw [if_neg hbl]
          exact hB
      rw [if_neg (by omega : ¬ beRaw = 0)] at heq
      have hbeB : be ≤ B := by omega
      have hbsB : bs ≤ B := by
        rw [hbs]
        by_cases hbf : block = first
        · rw [if_pos hbf]
          have hfbB : block * B = first * B := by rw [hbf]
          omega
        · rw [if_neg hbf]
          omega
      by_cases h1 : be < bs
      · rw [if_pos h1] at heq
        rw [Prod.mk.injEq, Prod.mk.injEq] at heq
        have hres : ([] : List Nat) = res := (Except.ok.injEq _ _).mp heq.1
        rw [← hres]
        have hbf : block = first := by
          by_contra hne
          rw [hbs, if_neg hne] at h1
          omega
        have hbb : block * B ≤ offset := by
          have : block * B = first * B := by rw [hbf]
          omega
        have hoff : offset < block * B + B := by
          have : block * B = first * B := by rw [hbf]
          omega
        have hbsv : bs = offset - block * B := by rw [hbs, if_pos hbf]
        have hDlen : D.length ≤ offset := by
          by_cases hbl : block = last
          · have hbeR : beRaw = offset + size - block * B := by
              rw [hbeval, if_pos hbl]
            omega
          · have hbeR : beRaw = B := by rw [hbeval, if_neg hbl]
            omega
        rw [List.drop_eq_nil_of_le hDlen]
        simp
      · rw [if_neg h1] at heq
        have hx1 : offset ≤ block * B + bs := by
          rw [hbs]
          by_cases hbf : block = first
          · rw [if_pos hbf]
            have : block * B = first * B := by rw [hbf]
            omega
          · rw [if_neg hbf]
            have hlt : first < block := by omega
            exact (hprev hlt hble).2
        have hxacc : acc = (D.drop offset).take (block * B + bs - offset) := by
          rw [hacc hble]
          congr 1
          rw [hbs]
          by_cases hbf : block = first
          · rw [if_pos hbf]
            have : block * B = first * B := by rw [hbf]
            omega
          · rw [if_neg hbf]
            omega
        have hDblock : ¬ block = first → block * B ≤ D.length := by
          intro hbf
          have hlt : first < block := by omega
          exact (hprev hlt hble).1
        have hslice : (bd.drop bs).take (be - bs) =
            (D.drop (block * B + bs)).take (be - bs) := by
          rw [hbd]
          unfold oldReadAt
          rw [slice_drop, List.take_take]
          congr 1
          omega
        have hacc2 : acc ++ (bd.drop bs).take (be - bs) =
            (D.drop offset).take (block * B + be - offset) := by
          rw [hslice, hxacc]
          have hsub : be - bs = (block * B + be) - (block * B + bs) := by omega
          rw [hsub]
          exact take_append_take_drop D offset (block * B + bs)
            (block * B + be) hx1 (by omega)
        have hendings : bd.length < B →
            (block * B + be - offset = size ∨
             (D.length - offset ≤ block * B + be - offset ∧
              D.length - offset ≤ size)) := by
          intro h3
          by_cases hbl : block = last
          · have hbeR : beRaw = offset + size - block * B := by
              rw [hbeval, if_pos hbl]
            have hblB : block * B = last * B := by rw [hbl]
            omega
          · have hbeR : beRaw = B := by rw [hbeval, if_neg hbl]
            have hlt : block < last := by omega
            have hs := hstepB hlt
            omega
        have hfinish : ∀ r : List Nat,
            r = (D.drop offset).take (block * B + be - offset) →
            bd.length < B → r = (D.drop offset).take size := by
          intro r hr h3
          rcases hendings h3 with hsz | ⟨hm1, hm2⟩
          · rw [hr, hsz]
          · rw [hr]
            have hl : (D.drop offset).length = D.length - offset := by simp
            rw [List.take_of_length_le (by omega),
                List.take_of_length_le (by omega)]
        have hrecur : ∀ acc2 : List Nat,
            acc2 = (D.drop offset).take (block * B + be - offset) →
            ¬ bd.length < B →
            oldFetchGo p offset size first last B D m fuel (block + 1) acc2
              s1 (log ++ [(block, bd.length)]) = (.ok res, s', log') →
            res = (D.drop offset).take size := by
          intro acc2 hacc2h h3 heq2
          have hlenB : bd.length = B := by omega
          refine ih (block + 1) acc2 s1 (log ++ [(block, bd.length)])
            (by omega) (by omega) hM1 ?_ ?_ ?_ res s' log' heq2
          · intro hble2
            rw [hacc2h]
            congr 1
            have hlt : block < last := by omega
            have hbeR : beRaw = B := by rw [hbeval, if_neg (by omega)]
            have h5 : (block + 1) * B = block * B + B := by ring
            omega
          · intro _ hble2
            have h5 : (block + 1) * B = block * B + B := by ring
            constructor
            · omega
            · omega
          · intro hb2
            rw [hacc2h]
            congr 1
            have hbl : block = last := by omega
            have hbeR : beRaw = offset + size - block * B := by
              rw [hbeval, if_pos hbl]
            have hblB : block * B = last * B := by rw [hbl]
            omega
        by_cases h2 : bs ≠ 0 ∨ be ≠ bd.length
        · rw [if_pos h2] at heq
          by_cases h3 : bd.length < B
          · rw [if_pos h3] at heq
            rw [Prod.mk.injEq, Prod.mk.injEq] at heq
            have hres := (Except.ok.injEq _ _).mp heq.1
            exact hfinish res (hres.symm.trans hacc2) h3
          · rw [if_neg h3] at heq
            exact hrecur _ hacc2 h3 heq
        · rw [if_neg h2] at heq
          push_neg at h2
          obtain ⟨h2a, h2b⟩ := h2
          have hbd2 : acc ++ bd = acc ++ (bd.drop bs).take (be - bs) := by
            rw [h2a, h2b]
            simp
          by_cases h4 : block = first ∧ block = last
          · rw [if_pos h4] at heq
            rw [Prod.mk.injEq, Prod.mk.injEq] at heq
            have hres : bd = res := (Except.ok.injEq _ _).mp heq.1
            have hoffeq : offset = block * B := by
              have hbb : block * B ≤ offset := by
                have : block * B = first * B := by rw [h4.1]
                omega
              rw [hbs, if_pos h4.1] at h2a
              omega
            have hbeR : beRaw = offset + size - block * B := by
              rw [hbeval, if_pos h4.2]
            have hblB : block * B = last * B := by rw [h4.2]
            have hl : (D.drop offset).length = D.length - offset := by simp
            have hsuff : B = size ∨
                (D.length - offset ≤ B ∧ D.length - offset ≤ size) := by
              omega
            rw [← hres, hbd]
            unfold oldReadAt
            rw [← hoffeq]
            rcases hsuff with hx | ⟨hx1a, hx2a⟩
            · rw [hx]
            · rw [List.take_of_length_le (by omega),
                  List.take_of_length_le (by omega)]
          · rw [if_neg h4] at heq
            rw [hbd2] at heq
            by_cases h5 : bd.length < B
            · rw [if_pos h5] at heq
              rw [Prod.mk.injEq, Prod.mk.injEq] at heq
              have hres := (Except.ok.injEq _ _).mp heq.1
              exact hfinish res (hres.symm.trans hacc2) h5
            · rw [if_neg h5] at heq
              exact hrecur _ hacc2 h5 heq

/-- C1 (amended): a successful fetch returns exactly the backing slice
D[offset .. min(offset + size, |D|)], provided size is at least 1 and
offset + size does not overflow u64 (the size = 0 case underflows
last_block and is refuted separately), and the cache state is
map-consistent at the path.  The returned bytes are always read from the
backing file: on consistent states cached_block never hits, because the
old FSLL to_head errors on every bucket that is actually on the used
list. -/
theorem C1_fetch_slice (s : OldState) (p offset size : Nat) (D : List Nat)
    (mm : Int) (hM : MapConsistent s p) (hsize : 0 < size)
    (hrange : offset + size < u64Mod)
    (res : List Nat) (s' : OldState) (log : List (Nat × Nat))
    (hok : oldFetch s p offset size D mm = (.ok res, s', log)) :
    res = (D.drop offset).take size := by
  unfold oldFetch at hok
  cases hinv : (if oldCachedMtime s p = some mm then Except.ok s
                else oldInvalidateKeep s p) with
  | error f =>
    rw [hinv] at hok
    dsimp only at hok
    rw [Prod.mk.injEq, Prod.mk.injEq] at hok
    exact nomatch hok.1
  | ok s1 =>
    rw [hinv] at hok
    dsimp only at hok
    have hM1 : MapConsistent s1 p := by
      by_cases hmt : oldCachedMtime s p = some mm
      · rw [if_pos hmt, Except.ok.injEq] at hinv
        rw [← hinv]
        exact hM
      · rw [if_neg hmt] at hinv
        exact Mc_oldInvalidateKeep s s1 p p hinv hM
    by_cases hB0 : s.blockSize = 0
    · rw [if_pos hB0] at hok
      rw [Prod.mk.injEq, Prod.mk.injEq] at hok
      exact nomatch hok.1
    · rw [if_neg hB0] at hok
      have hB : 0 < s.blockSize := Nat.pos_of_ne_zero hB0
      have hlastrw : (((offset + size) % u64Mod + (u64Mod - 1)) % u64Mod) /
          s.blockSize = (offset + size - 1) / s.blockSize := by
        rw [u64_wrap_dec (offset + size) (by omega) hrange]
      rw [hlastrw] at hok
      have hfl : offset / s.blockSize ≤ (offset + size - 1) / s.blockSize :=
        Nat.div_le_div_right (by omega)
      have hL1 : (offset + size - 1) / s.blockSize + 1 < u64Mod := by
        have h := Nat.div_le_self (offset + size - 1) s.blockSize
        omega
      have hfuel : offset / s.blockSize +
          (((offset + size - 1) / s.blockSize + 1) % u64Mod -
            offset / s.blockSize) = (offset + size - 1) / s.blockSize + 1 := by
        rw [Nat.mod_eq_of_lt hL1]
        omega
      refine oldFetchGo_slice p D mm s.blockSize offset size
        (offset / s.blockSize) ((offset + size - 1) / s.blockSize)
        hB hrange hsize rfl rfl _ (offset / s.blockSize) [] s1 []
        hfuel (le_refl _) hM1 ?_ ?_ ?_ res s' log hok
      · intro _
        have h := Nat.div_mul_le_self offset s.blockSize
        rw [show offset / s.blockSize * s.blockSize - offset = 0 by omega]
        rfl
      · intro hlt _
        exact absurd hlt (lt_irrefl _)
      · intro hcon
        exact absurd hcon (by omega)

/-- Witness for C1: reading 3 bytes at offset 1 of the 15-byte backing
content from an empty, consistent cache returns bytes 1 to 3. -/
theorem C1_witness :
    MapConsistent exOldEmpty 0 ∧ 0 < 3 ∧ 1 + 3 < u64Mod ∧
    (oldFetch exOldEmpty 0 1 3 exD15 1).1 = .ok [66, 67, 68] ∧
    ([66, 67, 68] : List Nat) = (exD15.drop 1).take 3 :=
  ⟨(fun i b h => nomatch h), by decide, by norm_num [u64Mod],
   rfl,
   C1_fetch_slice exOldEmpty 0 1 3 exD15 1 (fun i b h => nomatch h)
     (by decide) (by norm_num [u64Mod]) [66, 67, 68]
     (oldFetch exOldEmpty 0 1 3 exD15 1).2.1
     (oldFetch exOldEmpty 0 1 3 exD15 1).2.2 rfl⟩


end BackFS
